import Mathlib

/-!
# Lineage-tracking commands of the Databricks CLI

A shallow embedding of `cmd/workspace/lineage-tracking` (`lineage-tracking.go`,
`types.go`): the two request types, the command tree built by `New`, and the
two `RunE` handlers, together with the library functions they call
(`encoding/json`, `fmt`, `net/http`).

Modelling conventions.

* A Go `string` that reaches a handler as a command-line argument is a
  `GoString`, a sequence of bytes, well-formed UTF-8 or not.  The texts the
  program produces from it or receives otherwise (a JSON document, a URL, the
  message of an error, a response body) are Lean `String`s, sequences of
  Unicode scalar values.
* The URL of a request is the text `url.Parse` makes of the text given to
  `http.NewRequestWithContext`; `url.Parse` is the field `urlParse` of `Env`.
* A Go `error` is a value of `GoError`; `Error()` is `GoError.Error`.
* Calls that leave the package (authenticator, HTTP client, renderer, and the
  JSON codec) are fields of `Env`; `goEnv` binds the JSON codec to the model of
  `encoding/json` given here.
* A handler returns an `Outcome`: the ordered list of collaborator calls it
  made and the error it returned (`none` for `nil`).  An out-of-range index
  (`args[0]`) is a run-time panic, `Option.none` at the handler level.
-/

namespace LineageTracking

/-! ## Errors -/

/-- Go error values that occur in this package. -/
inductive GoError where
  /-- an error produced by a collaborator outside this package -/
  | external (text : String)
  /-- the usage error of `root.ExactArgs` (`*root.InvalidArgsError`) -/
  | invalidArgs (text : String)
  /-- a `*json.SyntaxError`; the wording of the message is supplied from outside -/
  | jsonSyntax (text : String)
  /-- a `*json.UnmarshalTypeError` with its `Value` and the name of its `Type` -/
  | jsonUnmarshalType (value goType : String)
  /-- the result of `fmt.Errorf` with a format that has no `%w` verb -/
  | formatted (text : String)
  /-- the result of `fmt.Errorf` with one `%w` verb: the text and the wrapped error -/
  | wrapping (text : String) (cause : GoError)
  deriving DecidableEq, Repr

/-- The method `Error()`. -/
def GoError.Error : GoError → String
  | .external t => t
  | .invalidArgs t => t
  | .jsonSyntax t => t
  | .jsonUnmarshalType v ty => "json: cannot unmarshal " ++ v ++ " into Go value of type " ++ ty
  | .formatted t => t
  | .wrapping t _ => t

/-- The method `Unwrap()` as used by `errors.Unwrap`. -/
def GoError.Unwrap : GoError → Option GoError
  | .wrapping _ c => some c
  | _ => none

/-- Whether the error is of the usage kind (`*root.InvalidArgsError`). -/
def GoError.isUsage : GoError → Bool
  | .invalidArgs _ => true
  | _ => false

/-- The call `fmt.Errorf(pre + "%w", err)` for a literal text `pre`. -/
def Errorf_w (pre : String) (err : GoError) : GoError :=
  .wrapping (pre ++ err.Error) err

/-- The verb `%d` applied to an `int`. -/
def fmt_d (n : Int) : String :=
  match n with
  | .ofNat m => Nat.repr m
  | .negSucc m => "-" ++ Nat.repr (m + 1)

/-- The text `hay` has `needle` as a contiguous part. -/
def Contains (hay needle : String) : Prop :=
  needle.data <:+: hay.data

/-- The text `s` begins with `pre`. -/
def BeginsWith (s pre : String) : Prop :=
  pre.data <+: s.data

instance (hay needle : String) : Decidable (Contains hay needle) :=
  inferInstanceAs (Decidable (needle.data <:+: hay.data))

instance (s pre : String) : Decidable (BeginsWith s pre) :=
  inferInstanceAs (Decidable (pre.data <+: s.data))

/-! ## Go strings -/

/-- A byte. -/
abbrev Byte := Fin 256

/-- A Go `string` that comes from outside the program (a command-line
argument): any sequence of bytes, well-formed UTF-8 or not. -/
abbrev GoString := List Byte

/-- The Go string of a text made of ASCII characters. -/
def asciiBytes (s : String) : GoString :=
  s.data.map (fun c => Fin.ofNat c.toNat)

/-- The table `first` of package `utf8` with `acceptRanges`, for a byte of
`0x80` and above: the length of the sequence the byte starts and the range the
second byte must lie in; `none` for a byte that starts no sequence. -/
def leadInfo (b : Byte) : Option (Nat × Nat × Nat) :=
  if 0xC2 ≤ b.val ∧ b.val ≤ 0xDF then some (2, 0x80, 0xBF)
  else if b.val = 0xE0 then some (3, 0xA0, 0xBF)
  else if 0xE1 ≤ b.val ∧ b.val ≤ 0xEC then some (3, 0x80, 0xBF)
  else if b.val = 0xED then some (3, 0x80, 0x9F)
  else if 0xEE ≤ b.val ∧ b.val ≤ 0xEF then some (3, 0x80, 0xBF)
  else if b.val = 0xF0 then some (4, 0x90, 0xBF)
  else if 0xF1 ≤ b.val ∧ b.val ≤ 0xF3 then some (4, 0x80, 0xBF)
  else if b.val = 0xF4 then some (4, 0x80, 0x8F)
  else none

/-- The function `utf8.DecodeRuneInString`: the rune at the front of the string
and its width in bytes.  `none` with width 1 is the result `(RuneError, 1)`
for a byte that is not the start of a well-formed sequence. -/
def decodeRune : GoString → Option Char × Nat
  | [] => (none, 0)
  | b0 :: rest =>
    if b0.val < 0x80 then (some (Char.ofNat b0.val), 1)
    else
      match leadInfo b0 with
      | none => (none, 1)
      | some (size, lo, hi) =>
        match rest with
        | [] => (none, 1)
        | b1 :: rest1 =>
          if b1.val < lo ∨ hi < b1.val then (none, 1)
          else if size = 2 then (some (Char.ofNat (b0.val % 32 * 64 + b1.val % 64)), 2)
          else
            match rest1 with
            | [] => (none, 1)
            | b2 :: rest2 =>
              if b2.val < 0x80 ∨ 0xBF < b2.val then (none, 1)
              else if size = 3 then
                (some (Char.ofNat (b0.val % 16 * 4096 + b1.val % 64 * 64 + b2.val % 64)), 3)
              else
                match rest2 with
                | [] => (none, 1)
                | b3 :: _ =>
                  if b3.val < 0x80 ∨ 0xBF < b3.val then (none, 1)
                  else
                    (some (Char.ofNat (b0.val % 8 * 262144 + b1.val % 64 * 4096
                      + b2.val % 64 * 64 + b3.val % 64)), 4)

/-- The runes of a Go string as a loop `for i < len(s) { r, size := DecodeRune;
i += size }` reads them, `none` standing for a byte that is not part of a
well-formed sequence.  `fuel` bounds the number of iterations; each one takes
at least one byte. -/
def decodeRunesLoop : Nat → GoString → List (Option Char)
  | 0, _ => []
  | _ + 1, [] => []
  | fuel + 1, b :: rest =>
    if b.val < 0x80 then some (Char.ofNat b.val) :: decodeRunesLoop fuel rest
    else
      match decodeRune (b :: rest) with
      | (none, _) => none :: decodeRunesLoop fuel rest
      | (some c, size) => some c :: decodeRunesLoop fuel ((b :: rest).drop size)

/-- The runes of a Go string. -/
def GoString.runes (s : GoString) : List (Option Char) :=
  decodeRunesLoop s.length s

/-- Whether the Go string is well-formed UTF-8. -/
def GoString.wellFormed (s : GoString) : Bool :=
  s.runes.all Option.isSome

/-- The character `U+FFFD`, `unicode.ReplacementChar` and `utf8.RuneError`. -/
def replacementChar : Char := Char.ofNat 0xFFFD

/-- The Go string coerced to valid UTF-8, as a text: every byte that is not
part of a well-formed sequence replaced by `U+FFFD`. -/
def GoString.toValid (s : GoString) : String :=
  String.mk (s.runes.map (fun r => r.getD replacementChar))

/-! ## `types.go` -/

/-- TableLineageRequest describes the request body for table lineage. -/
structure TableLineageRequest where
  TableName : GoString
  IncludeEntityLineage : Bool
  deriving DecidableEq, Repr

/-- ColumnLineageRequest describes the request body for column lineage. -/
structure ColumnLineageRequest where
  TableName : GoString
  ColumnName : GoString
  deriving DecidableEq, Repr

/-- The value of a struct field, for the field types that occur in `types.go`. -/
inductive FieldValue where
  | str (s : GoString)
  | bool (b : Bool)
  deriving DecidableEq, Repr

/-- One exported struct field as `encoding/json` sees it: the key of its
`json:"..."` tag, whether the tag has `omitempty`, and the field's value. -/
structure StructField where
  key : GoString
  omitEmpty : Bool
  value : FieldValue
  deriving DecidableEq, Repr

/-- The fields of a `TableLineageRequest`, in declaration order, with their tags
`json:"table_name"` and `json:"include_entity_lineage,omitempty"`. -/
def TableLineageRequest.fields (r : TableLineageRequest) : List StructField :=
  [⟨asciiBytes "table_name", false, .str r.TableName⟩,
   ⟨asciiBytes "include_entity_lineage", true, .bool r.IncludeEntityLineage⟩]

/-- The fields of a `ColumnLineageRequest`, in declaration order, with their tags
`json:"table_name"` and `json:"column_name"`. -/
def ColumnLineageRequest.fields (r : ColumnLineageRequest) : List StructField :=
  [⟨asciiBytes "table_name", false, .str r.TableName⟩,
   ⟨asciiBytes "column_name", false, .str r.ColumnName⟩]

/-! ## `encoding/json`: encoding -/

/-- The table `hex = "0123456789abcdef"` of `encoding/json`. -/
def hexDigit (n : Nat) : Char :=
  if n < 10 then Char.ofNat (48 + n) else Char.ofNat (87 + n)

/-- The table `htmlSafeSet`: the ASCII characters written without escaping when
HTML escaping is on (as it is for `json.Marshal`).  All of `0x20 .. 0x7f` but
the double quote, the ampersand, the angle brackets and the backslash. -/
def htmlSafe (c : Char) : Bool :=
  decide (32 ≤ c.toNat) && decide (c.toNat < 128) &&
    !(c == '"' || c == '&' || c == '<' || c == '>' || c == '\\')

/-- The branch `b < utf8.RuneSelf` of the loop of `appendString`: what is
appended for an ASCII character (`escapeHTML = true`).  The short escapes for
backspace and form feed are those of Go 1.22 and later; earlier releases write
them as `\u0008` and `\u000c`, which decode to the same characters. -/
def appendASCII (c : Char) : List Char :=
  if htmlSafe c then [c]
  else if c = '\\' ∨ c = '"' then ['\\', c]
  else if c = Char.ofNat 8 then ['\\', 'b']
  else if c = Char.ofNat 12 then ['\\', 'f']
  else if c = '\n' then ['\\', 'n']
  else if c = '\r' then ['\\', 'r']
  else if c = '\t' then ['\\', 't']
  else ['\\', 'u', '0', '0', hexDigit (c.toNat / 16), hexDigit (c.toNat % 16)]

/-- The rest of the loop of `appendString` for a well-formed sequence of two
bytes or more: `U+2028` and `U+2029` are escaped, any other rune is copied. -/
def appendWide (c : Char) : List Char :=
  if c = Char.ofNat 0x2028 ∨ c = Char.ofNat 0x2029 then
    ['\\', 'u', '2', '0', '2', hexDigit (c.toNat % 16)]
  else [c]

/-- The loop of `appendString(dst, src, true)`: what is written between the two
quotes.  A byte below `0x80` is written by `appendASCII`; otherwise the rune at
the front is decoded, a byte that is not part of a well-formed sequence is
written as the six characters of the escape for `U+FFFD`, and the loop goes on after the rune.
`fuel` bounds the number of iterations; each one takes at least one byte. -/
def appendStringLoop : Nat → GoString → List Char
  | 0, _ => []
  | _ + 1, [] => []
  | fuel + 1, b :: rest =>
    if b.val < 0x80 then appendASCII (Char.ofNat b.val) ++ appendStringLoop fuel rest
    else
      match decodeRune (b :: rest) with
      | (none, _) => ['\\', 'u', 'f', 'f', 'f', 'd'] ++ appendStringLoop fuel rest
      | (some c, size) => appendWide c ++ appendStringLoop fuel ((b :: rest).drop size)

/-- The function `appendString(dst, src, true)`: the JSON string literal for `s`. -/
def appendString (s : GoString) : List Char :=
  '"' :: (appendStringLoop s.length s ++ ['"'])

/-- The function `isEmptyValue` on the field types in use: `omitempty` drops a
`false` boolean and an empty string. -/
def isEmptyValue : FieldValue → Bool
  | .str s => s.isEmpty
  | .bool b => !b

/-- The encoder of a field value: `stringEncoder` or `boolEncoder`. -/
def encodeValue : FieldValue → List Char
  | .str s => appendString s
  | .bool true => ['t', 'r', 'u', 'e']
  | .bool false => ['f', 'a', 'l', 's', 'e']

/-- The loop of `structEncoder.encode`: fields in order, skipping an empty
`omitempty` field; `next` is the byte written before the field (an opening
brace before the first one written, a comma before the others). -/
def encodeFields : Char → List StructField → List Char
  | next, [] => if next = '{' then ['{', '}'] else ['}']
  | next, f :: fs =>
    if f.omitEmpty && isEmptyValue f.value then encodeFields next fs
    else next :: (appendString f.key ++ ':' :: (encodeValue f.value ++ encodeFields ',' fs))

/-- The function `json.Marshal` on a struct given by its fields.  For the field
types in use it never returns an error.  The text it returns is well-formed
UTF-8 whatever the field values are. -/
def json_Marshal (fields : List StructField) : Except GoError String :=
  .ok (String.mk (encodeFields '{' fields))

/-! ## `encoding/json`: decoding into `map[string]any` -/

/-- The Go values `encoding/json` stores in an `any`: `nil`, `bool`, `float64`,
`string`, `[]any` and `map[string]any`.  A `float64` is represented by the
number literal it was converted from (its value is a function of that text).
A map is the list of its bindings, keys distinct, in order of first insertion. -/
inductive GoAny where
  | nil
  | bool (b : Bool)
  | float64 (lit : String)
  | string (s : String)
  | slice (xs : List GoAny)
  | map (kvs : List (String × GoAny))

/-- The bindings of a non-nil `map[string]any`. -/
abbrev GoMap := List (String × GoAny)

/-- The assignment `m[k] = v`. -/
def mapSet : GoMap → String → GoAny → GoMap
  | [], k, v => [(k, v)]
  | (k0, v0) :: rest, k, v =>
    if k0 = k then (k, v) :: rest else (k0, v0) :: mapSet rest k v

/-- The function `isSpace` of the scanner. -/
def isSpace (c : Char) : Bool :=
  c == ' ' || c == '\t' || c == '\r' || c == '\n'

/-- Skip insignificant white space (`scanSkipSpace`). -/
def skipSpace : List Char → List Char
  | [] => []
  | c :: cs => if isSpace c then skipSpace cs else c :: cs

/-- The value of a hexadecimal digit, as in `getu4`. -/
def hexVal (c : Char) : Option Nat :=
  if 48 ≤ c.toNat ∧ c.toNat ≤ 57 then some (c.toNat - 48)
  else if 97 ≤ c.toNat ∧ c.toNat ≤ 102 then some (c.toNat - 87)
  else if 65 ≤ c.toNat ∧ c.toNat ≤ 70 then some (c.toNat - 55)
  else none

/-- The function `getu4` on the four characters after a backslash and `u`. -/
def getu4 (a b c d : Char) : Option Nat :=
  match hexVal a, hexVal b, hexVal c, hexVal d with
  | some x, some y, some z, some w => some (((x * 16 + y) * 16 + z) * 16 + w)
  | _, _, _, _ => none

/-- The function `utf16.IsSurrogate`. -/
def isSurrogate (r : Nat) : Bool :=
  decide (0xD800 ≤ r) && decide (r < 0xE000)

/-- The function `utf16.DecodeRune`, `none` standing for `U+FFFD`. -/
def decodeSurrogates (r1 r2 : Nat) : Option Char :=
  if 0xD800 ≤ r1 ∧ r1 < 0xDC00 ∧ 0xDC00 ≤ r2 ∧ r2 < 0xE000 then
    some (Char.ofNat ((r1 - 0xD800) * 1024 + (r2 - 0xDC00) + 0x10000))
  else none

/-- The one-character escapes of `unquote`. -/
def simpleEscape (e : Char) : Option Char :=
  if e = '"' then some '"'
  else if e = '\\' then some '\\'
  else if e = '/' then some '/'
  else if e = 'b' then some (Char.ofNat 8)
  else if e = 'f' then some (Char.ofNat 12)
  else if e = 'n' then some '\n'
  else if e = 'r' then some '\r'
  else if e = 't' then some '\t'
  else none

/-- Put a decoded character in front of the result of scanning the rest. -/
def consChar (c : Char) (r : Option (List Char × List Char)) : Option (List Char × List Char) :=
  match r with
  | none => none
  | some (s, rest) => some (c :: s, rest)

/-- Emit `U+FFFD` for a surrogate escape that found no partner. -/
def flushPending (pending : Option Nat) (r : Option (List Char × List Char)) :
    Option (List Char × List Char) :=
  match pending with
  | some _ => consChar replacementChar r
  | none => r

/-- Scan a string literal whose opening quote has been read, and unquote it
(the scanner states `stateInString`, `stateInStringEsc`, `stateInStringEscU..`
followed by `unquote`): the decoded text and the input after the closing
quote; `none` when the literal is malformed or not closed.

`pending` is a surrogate read from a `\uXXXX` escape and not yet written:
`unquote` looks at the escape after it, writes the combined rune when the two
form a pair, and otherwise writes `U+FFFD` and goes on with what follows. -/
def scanString : Option Nat → List Char → Option (List Char × List Char)
  | _, [] => none
  | pending, c :: cs =>
    if c = '"' then flushPending pending (some ([], cs))
    else if c = '\\' then
      match cs with
      | [] => none
      | e :: es =>
        if e = 'u' then
          match es with
          | a :: b :: c2 :: d :: rest =>
            match getu4 a b c2 d with
            | none => none
            | some rr =>
              match pending with
              | some hi =>
                match decodeSurrogates hi rr with
                | some dec => consChar dec (scanString none rest)
                | none =>
                  consChar replacementChar
                    (if isSurrogate rr then scanString (some rr) rest
                     else consChar (Char.ofNat rr) (scanString none rest))
              | none =>
                if isSurrogate rr then scanString (some rr) rest
                else consChar (Char.ofNat rr) (scanString none rest)
          | _ => none
        else
          match simpleEscape e with
          | none => none
          | some x => flushPending pending (consChar x (scanString none es))
    else if c.toNat < 32 then none
    else flushPending pending (consChar c (scanString none cs))

/-- Whether the character is a decimal digit. -/
def isDigit (c : Char) : Bool :=
  decide (48 ≤ c.toNat) && decide (c.toNat ≤ 57)

/-- The longest run of decimal digits at the front, and what follows it. -/
def takeDigits : List Char → List Char × List Char
  | [] => ([], [])
  | c :: cs =>
    if isDigit c then ((takeDigits cs).1.cons c, (takeDigits cs).2) else ([], c :: cs)

/-- A number literal, split into its parts. -/
structure NumLit where
  neg : Bool
  intDigits : List Char
  fracDigits : List Char
  /-- the exponent marker and sign as written (`e`, `E+`, ...), empty without exponent -/
  expSign : List Char
  expDigits : List Char
  deriving DecidableEq, Repr

/-- The integer part of a number: a single `0`, or a digit `1..9` and more digits
(the scanner states `state0` and `state1`). -/
def scanInt : List Char → Option (List Char × List Char)
  | [] => none
  | c :: cs =>
    if c = '0' then some (['0'], cs)
    else if isDigit c then some (c :: (takeDigits cs).1, (takeDigits cs).2)
    else none

/-- The optional fraction: a dot and at least one digit (`stateDot`, `stateDot0`). -/
def scanFrac : List Char → Option (List Char × List Char)
  | [] => some ([], [])
  | c :: cs =>
    if c = '.' then
      if (takeDigits cs).1.isEmpty then none else some (takeDigits cs)
    else some ([], c :: cs)

/-- The optional exponent: `e` or `E`, an optional sign, and at least one digit
(`stateE`, `stateESign`, `stateE0`).  The result is the marker and sign as
written, the digits, and the rest. -/
def scanExp : List Char → Option (List Char × List Char × List Char)
  | [] => some ([], [], [])
  | c :: cs =>
    if c = 'e' ∨ c = 'E' then
      match cs with
      | [] => none
      | s :: r =>
        if s = '+' ∨ s = '-' then
          if (takeDigits r).1.isEmpty then none
          else some ([c, s], (takeDigits r).1, (takeDigits r).2)
        else
          if (takeDigits cs).1.isEmpty then none
          else some ([c], (takeDigits cs).1, (takeDigits cs).2)
    else some ([], [], c :: cs)

/-- Scan a number literal (`-`? int frac? exp?): its parts and the rest. -/
def scanNumber (cs : List Char) : Option (NumLit × List Char) :=
  let neg := match cs with
    | c :: _ => decide (c = '-')
    | [] => false
  let cs1 := if neg then cs.tail else cs
  match scanInt cs1 with
  | none => none
  | some (ints, r1) =>
    match scanFrac r1 with
    | none => none
    | some (fracs, r2) =>
      match scanExp r2 with
      | none => none
      | some (mark, exps, r3) => some (⟨neg, ints, fracs, mark, exps⟩, r3)

/-- The text of a number literal as written in the input. -/
def NumLit.source (n : NumLit) : List Char :=
  (if n.neg then ['-'] else []) ++ n.intDigits ++
    (if n.fracDigits.isEmpty then [] else '.' :: n.fracDigits) ++ n.expSign ++ n.expDigits

/-- The decimal value of a run of digits. -/
def digitsVal (ds : List Char) : Nat :=
  ds.foldl (fun m c => m * 10 + (c.toNat - 48)) 0

/-- The exponent as `strconv` reads it: digits are accumulated only while the
value is below 10000. -/
def cappedExp (ds : List Char) : Nat :=
  ds.foldl (fun e c => if e < 10000 then e * 10 + (c.toNat - 48) else e) 0

/-- The least magnitude that `strconv.ParseFloat(s, 64)` rounds to infinity:
half-way between the largest `float64` and `2^1024`. -/
def float64Limit : Nat := 2 ^ 1024 - 2 ^ 970

/-- Whether `strconv.ParseFloat(s, 64)` reports a range error for the literal:
the magnitude `digits * 10 ^ (exponent - number of fraction digits)` reaches
`float64Limit`. -/
def float64Overflows (n : NumLit) : Bool :=
  let m := digitsVal (n.intDigits ++ n.fracDigits)
  let e := cappedExp n.expDigits
  let k := n.fracDigits.length
  if n.expSign.contains '-' then decide (float64Limit * 10 ^ (e + k) ≤ m)
  else if k ≤ e then decide (float64Limit ≤ m * 10 ^ (e - k))
  else decide (float64Limit * 10 ^ (k - e) ≤ m)

/-- The function `convertNumber`: the `float64` for a literal, or the
`UnmarshalTypeError` for a literal out of range. -/
def convertNumber (n : NumLit) : Except GoError GoAny :=
  if float64Overflows n then
    .error (.jsonUnmarshalType ("number " ++ String.mk n.source) "float64")
  else .ok (.float64 (String.mk n.source))

/-- The result of decoding one value: the value, the first conversion error
saved so far (`d.savedError`), and the input after the value. -/
structure Parsed where
  val : GoAny
  err : Option GoError
  rest : List Char

/-- Keep the first saved error (`saveError`). -/
def saveError (saved new : Option GoError) : Option GoError :=
  match saved with
  | some e => some e
  | none => new

/-- Read the rest of a literal name such as `true` whose first letter has been read. -/
def expect : List Char → List Char → Option (List Char)
  | [], cs => some cs
  | _ :: _, [] => none
  | l :: ls, c :: cs => if l = c then expect ls cs else none

/-- The elements of an array after the first value has been found to start at
`cs`: value, then a comma and another value, or the closing bracket.  `pv`
decodes one element; `fuel` bounds the number of elements (each takes at least
one character, so the length of the input is enough). -/
def parseElems (pv : List Char → Option Parsed) :
    Nat → List GoAny → Option GoError → List Char → Option Parsed
  | 0, _, _, _ => none
  | fuel + 1, acc, err, cs =>
    match pv cs with
    | none => none
    | some p =>
      match skipSpace p.rest with
      | [] => none
      | x :: r =>
        if x = ',' then parseElems pv fuel (acc ++ [p.val]) (saveError err p.err) (skipSpace r)
        else if x = ']' then some ⟨.slice (acc ++ [p.val]), saveError err p.err, r⟩
        else none

/-- The members of an object, `cs` standing at the first key: a string, a
colon, a value, then a comma and another member, or the closing brace (the
loop of `objectInterface`).  A key that occurs again replaces the binding. -/
def parseMembers (pv : List Char → Option Parsed) :
    Nat → GoMap → Option GoError → List Char → Option Parsed
  | 0, _, _, _ => none
  | fuel + 1, acc, err, cs =>
    match cs with
    | [] => none
    | q :: r0 =>
      if q = '"' then
        match scanString none r0 with
        | none => none
        | some (k, r1) =>
          match skipSpace r1 with
          | [] => none
          | x :: r2 =>
            if x = ':' then
              match pv (skipSpace r2) with
              | none => none
              | some p =>
                match skipSpace p.rest with
                | [] => none
                | y :: r3 =>
                  if y = ',' then
                    parseMembers pv fuel (mapSet acc (String.mk k) p.val) (saveError err p.err)
                      (skipSpace r3)
                  else if y = '}' then
                    some ⟨.map (mapSet acc (String.mk k) p.val), saveError err p.err, r3⟩
                  else none
            else none
      else none

/-- The constant `maxNestingDepth` of the scanner. -/
def maxNestingDepth : Nat := 10000

/-- Decode the JSON value at the front of the input into an `any`
(`valueInterface`); `depth` is the number of arrays and objects that may
still be opened (`pushParseState` fails beyond `maxNestingDepth`). -/
def parseValue : Nat → List Char → Option Parsed
  | _, [] => none
  | depth, c :: cs =>
    if c = '{' then
      match depth with
      | 0 => none
      | d + 1 =>
        match skipSpace cs with
        | [] => none
        | x :: r =>
          if x = '}' then some ⟨.map [], none, r⟩
          else parseMembers (parseValue d) (cs.length) [] none (x :: r)
    else if c = '[' then
      match depth with
      | 0 => none
      | d + 1 =>
        match skipSpace cs with
        | [] => none
        | x :: r =>
          if x = ']' then some ⟨.slice [], none, r⟩
          else parseElems (parseValue d) (cs.length) [] none (x :: r)
    else if c = '"' then
      match scanString none cs with
      | none => none
      | some (s, r) => some ⟨.string (String.mk s), none, r⟩
    else if c = 't' then
      match expect ['r', 'u', 'e'] cs with
      | none => none
      | some r => some ⟨.bool true, none, r⟩
    else if c = 'f' then
      match expect ['a', 'l', 's', 'e'] cs with
      | none => none
      | some r => some ⟨.bool false, none, r⟩
    else if c = 'n' then
      match expect ['u', 'l', 'l'] cs with
      | none => none
      | some r => some ⟨.nil, none, r⟩
    else
      match scanNumber (c :: cs) with
      | none => none
      | some (n, r) =>
        match convertNumber n with
        | .ok v => some ⟨v, none, r⟩
        | .error e => some ⟨.nil, some e, r⟩

/-- The whole input as one JSON value with white space around it
(`checkValid` followed by `d.value`): `none` for a syntax error. -/
def parseDocument (data : String) : Option Parsed :=
  match parseValue maxNestingDepth (skipSpace data.data) with
  | none => none
  | some p => if (skipSpace p.rest).isEmpty then some p else none

/-- The name `reflect` gives the type `map[string]any`. -/
def mapTypeName : String := "map[string]interface \x7b\x7d"

/-- The call `json.Unmarshal(data, &response)` for `var response map[string]any`:
the error, or the value of `response` afterwards (`none` for the nil map).
`syntaxText` gives the message of the `SyntaxError` for a malformed input. -/
def json_Unmarshal (syntaxText : String → String) (data : String) :
    Except GoError (Option GoMap) :=
  match parseDocument data with
  | none => .error (.jsonSyntax (syntaxText data))
  | some p =>
    match p.val with
    | .nil =>
      -- the literal null leaves the map nil; a nil value with a saved error is
      -- a number out of range, which at the top level is a number all the same
      match p.err with
      | none => .ok none
      | some _ => .error (.jsonUnmarshalType "number" mapTypeName)
    | .map kvs =>
      match p.err with
      | some e => .error e
      | none => .ok (some kvs)
    | .slice _ => .error (.jsonUnmarshalType "array" mapTypeName)
    | .string _ => .error (.jsonUnmarshalType "string" mapTypeName)
    | .float64 _ => .error (.jsonUnmarshalType "number" mapTypeName)
    | .bool _ => .error (.jsonUnmarshalType "bool" mapTypeName)

/-! ## The JSON grammar

What a JSON text denotes, stated as rules on the text (RFC 8259), with the two
limits of the decoder: containers nest no deeper than `maxNestingDepth`, and a
number lies within the range of `float64`.  The rules do not mention the
decoder. -/

/-- A run of white space. -/
def AllSpace (ws : List Char) : Prop :=
  ∀ c ∈ ws, isSpace c = true

/-- Whether the characters are all decimal digits. -/
def allDigits (ds : List Char) : Bool :=
  ds.all isDigit

/-- Whether the parts form a number literal: an integer part that is `0` or
starts with `1..9`, fraction digits, and either no exponent or a marker `e` or
`E`, an optional sign and at least one digit. -/
def NumLit.wellFormed (n : NumLit) : Bool :=
  (match n.intDigits with
    | [] => false
    | d :: ds => if d = '0' then ds.isEmpty else isDigit d && allDigits ds) &&
  allDigits n.fracDigits &&
  (match n.expSign with
    | [] => n.expDigits.isEmpty
    | [e] => (e == 'e' || e == 'E') && !n.expDigits.isEmpty && allDigits n.expDigits
    | [e, s] =>
      (e == 'e' || e == 'E') && (s == '+' || s == '-') && !n.expDigits.isEmpty &&
        allDigits n.expDigits
    | _ => false)

/-- Whether a `\uXXXX` escape of the surrogate `n` is followed by the escape of
a low surrogate that completes it. -/
def pairsWith (n : Nat) (raw : List Char) : Bool :=
  match raw with
  | x :: y :: a :: b :: c :: d :: _ =>
    x == '\\' && y == 'u' &&
      (match getu4 a b c d with
        | some lo => (decodeSurrogates n lo).isSome
        | none => false)
  | _ => false

/-- The characters between the quotes of a string literal, and the text they
spell: characters from `U+0020` on other than the quote and the backslash
stand for themselves; the two-character escapes; `\uXXXX` for a code unit; two
such escapes for a surrogate pair; a surrogate escape without its partner
spells `U+FFFD`. -/
inductive StringText : List Char → List Char → Prop where
  | done : StringText [] []
  | plain (c : Char) (raw s : List Char) : c ≠ '"' → c ≠ '\\' → 32 ≤ c.toNat →
      StringText raw s → StringText (c :: raw) (c :: s)
  | escape (e x : Char) (raw s : List Char) : simpleEscape e = some x →
      StringText raw s → StringText ('\\' :: e :: raw) (x :: s)
  | unit (a b c d : Char) (n : Nat) (raw s : List Char) : getu4 a b c d = some n →
      isSurrogate n = false → StringText raw s →
      StringText ('\\' :: 'u' :: a :: b :: c :: d :: raw) (Char.ofNat n :: s)
  | pair (a b c d a2 b2 c2 d2 : Char) (hi lo : Nat) (dec : Char) (raw s : List Char) :
      getu4 a b c d = some hi → getu4 a2 b2 c2 d2 = some lo →
      decodeSurrogates hi lo = some dec → StringText raw s →
      StringText ('\\' :: 'u' :: a :: b :: c :: d :: '\\' :: 'u' :: a2 :: b2 :: c2 :: d2 :: raw)
        (dec :: s)
  | lone (a b c d : Char) (n : Nat) (raw s : List Char) : getu4 a b c d = some n →
      isSurrogate n = true → pairsWith n raw = false → StringText raw s →
      StringText ('\\' :: 'u' :: a :: b :: c :: d :: raw) (replacementChar :: s)

/-- A text that is a value without parts, and the Go value it denotes: the
three literal names, a number literal in the range of `float64`, a string. -/
inductive ScalarText : List Char → GoAny → Prop where
  | null : ScalarText ['n', 'u', 'l', 'l'] .nil
  | true : ScalarText ['t', 'r', 'u', 'e'] (.bool true)
  | false : ScalarText ['f', 'a', 'l', 's', 'e'] (.bool false)
  | number (n : NumLit) : n.wellFormed = true → float64Overflows n = false →
      ScalarText n.source (.float64 (String.mk n.source))
  | string (raw s : List Char) : StringText raw s →
      ScalarText ('"' :: (raw ++ ['"'])) (.string (String.mk s))

/-- The elements of an array from the first value up to the closing bracket,
and the values they denote, `J` relating the text of one element to its value. -/
inductive ElemsText (J : List Char → GoAny → Prop) : List Char → List GoAny → Prop where
  | last (text : List Char) (v : GoAny) (ws : List Char) : J text v → AllSpace ws →
      ElemsText J (text ++ (ws ++ [']'])) [v]
  | more (text : List Char) (v : GoAny) (ws1 ws2 tail : List Char) (vs : List GoAny) :
      J text v → AllSpace ws1 → AllSpace ws2 → ElemsText J tail vs →
      ElemsText J (text ++ (ws1 ++ ',' :: (ws2 ++ tail))) (v :: vs)

/-- The members of an object from the first key up to the closing brace, and
the key-value pairs they denote, in the order written. -/
inductive MembersText (J : List Char → GoAny → Prop) :
    List Char → List (String × GoAny) → Prop where
  | last (raw k : List Char) (ws1 ws2 text : List Char) (v : GoAny) (ws3 : List Char) :
      StringText raw k → AllSpace ws1 → AllSpace ws2 → J text v → AllSpace ws3 →
      MembersText J ('"' :: (raw ++ '"' :: (ws1 ++ ':' :: (ws2 ++ (text ++ (ws3 ++ ['}']))))))
        [(String.mk k, v)]
  | more (raw k : List Char) (ws1 ws2 text : List Char) (v : GoAny) (ws3 ws4 tail : List Char)
      (ms : List (String × GoAny)) :
      StringText raw k → AllSpace ws1 → AllSpace ws2 → J text v → AllSpace ws3 →
      AllSpace ws4 → MembersText J tail ms →
      MembersText J
        ('"' :: (raw ++ '"' :: (ws1 ++ ':' :: (ws2 ++ (text ++ (ws3 ++ ',' :: (ws4 ++ tail)))))))
        ((String.mk k, v) :: ms)

/-- The mapping a list of key-value pairs denotes: each key once, in the order
of first occurrence, bound to the value of its last occurrence. -/
def bindAll (ms : List (String × GoAny)) : GoMap :=
  ms.foldl (fun m kv => mapSet m kv.1 kv.2) []

/-- The value the last pair with key `k` gives it. -/
def lastValue : List (String × GoAny) → String → Option GoAny
  | [], _ => none
  | (k0, v0) :: ms, k =>
    match lastValue ms k with
    | some v => some v
    | none => if k0 = k then some v0 else none

/-- A text that is an array or an object, and the Go value it denotes, `J`
relating the text of a part to its value. -/
inductive ContainerText (J : List Char → GoAny → Prop) : List Char → GoAny → Prop where
  | emptyArray (ws : List Char) : AllSpace ws → ContainerText J ('[' :: (ws ++ [']'])) (.slice [])
  | array (ws body : List Char) (vs : List GoAny) : AllSpace ws → ElemsText J body vs →
      ContainerText J ('[' :: (ws ++ body)) (.slice vs)
  | emptyObject (ws : List Char) : AllSpace ws → ContainerText J ('{' :: (ws ++ ['}'])) (.map [])
  | object (ws body : List Char) (ms : List (String × GoAny)) : AllSpace ws →
      MembersText J body ms → ContainerText J ('{' :: (ws ++ body)) (.map (bindAll ms))

/-- A text that is a JSON value with containers nested at most `depth` deep,
and the Go value it denotes. -/
def JsonText : Nat → List Char → GoAny → Prop
  | 0 => ScalarText
  | depth + 1 => fun text v => ScalarText text v ∨ ContainerText (JsonText depth) text v

/-- A text that is a JSON document the decoder accepts (one value, with white
space around it, nested within the limit, numbers in range), and the Go value
it denotes. -/
def DocumentText (body : String) (v : GoAny) : Prop :=
  ∃ ws1 text ws2, body.data = ws1 ++ (text ++ ws2) ∧ AllSpace ws1 ∧ AllSpace ws2 ∧
    JsonText maxNestingDepth text v

/-- What may follow a value: nothing, white space, a comma or a closing
bracket or brace. -/
def EndsValue (rest : List Char) : Prop :=
  ∀ c r, rest = c :: r → isSpace c = true ∨ c = ',' ∨ c = ']' ∨ c = '}'

/-- What may follow a number: no digit, dot or exponent marker. -/
def EndsNumber (R : List Char) : Prop :=
  ∀ c r, R = c :: r → isDigit c = false ∧ c ≠ '.' ∧ c ≠ 'e' ∧ c ≠ 'E'

/-- A text begins with a character that starts a value: it is not white space
and not a closing bracket or brace. -/
def StartsValue (text : List Char) : Prop :=
  ∃ c cs, text = c :: cs ∧ isSpace c = false ∧ c ≠ ']' ∧ c ≠ '}'

/-- A text that is a JSON object, and the members written in it, in the order
written, `J` relating the text of a member's value to the value. -/
inductive ObjectText (J : List Char → GoAny → Prop) :
    List Char → List (String × GoAny) → Prop where
  | empty (ws : List Char) : AllSpace ws → ObjectText J ('{' :: (ws ++ ['}'])) []
  | members (ws body : List Char) (ms : List (String × GoAny)) : AllSpace ws →
      MembersText J body ms → ObjectText J ('{' :: (ws ++ body)) ms

/-- A text that is a JSON document whose value is an object the decoder accepts
(white space around it, nested within the limit, numbers in range), and the
members written in the object. -/
def ObjectDocument (body : String) (ms : List (String × GoAny)) : Prop :=
  ∃ ws1 text ws2 depth, body.data = ws1 ++ (text ++ ws2) ∧ AllSpace ws1 ∧ AllSpace ws2 ∧
    depth + 1 = maxNestingDepth ∧ ObjectText (JsonText depth) text ms

/-! ## `net/http` and the collaborators -/

/-- The parts of an `*http.Request` the handlers set.  `URL` is the request's
URL as `req.URL.String()` writes it. -/
structure Request where
  Method : String
  URL : String
  Header : List (String × String)
  Body : String
  deriving DecidableEq, Repr

/-- The parts of an `*http.Response` the handlers read.  `Body` is what
`io.ReadAll(resp.Body)` returns: the whole body, or a read error. -/
structure Response where
  StatusCode : Int
  Body : Except GoError String

/-- The method `Header.Set`: the value of the key is replaced, or the key added. -/
def headerSet : List (String × String) → String → String → List (String × String)
  | [], k, v => [(k, v)]
  | (k0, v0) :: rest, k, v =>
    if k0 = k then (k, v) :: rest else (k0, v0) :: headerSet rest k v

/-- Everything a handler calls outside its package. -/
structure Env where
  /-- the field `w.Config.Host` of the workspace client -/
  Host : String
  /-- the function `json.Marshal` on a struct value -/
  Marshal : List StructField → Except GoError String
  /-- the URL `http.NewRequestWithContext` gives the request for the text of a
  URL, as `String()` writes it: the result of `url.Parse`, which may spell the
  URL differently from the text (a lower-case scheme, escaped characters), or
  the error of `url.Parse` -/
  urlParse : String → Except GoError String
  /-- the method `w.Config.Authenticate(req)`: its error, or the request as it leaves it -/
  Authenticate : Request → Except GoError Request
  /-- the method `http.DefaultClient.Do(req)` -/
  Do : Request → Except GoError Response
  /-- the call `json.Unmarshal(body, &response)` for a nil `map[string]any` -/
  Unmarshal : String → Except GoError (Option GoMap)
  /-- the function `cmdio.Render(ctx, response)` -/
  Render : Option GoMap → Option GoError
  /-- the hook `root.MustWorkspaceClient` -/
  MustWorkspaceClient : Option GoError
  /-- the function `root.ReportUnknownSubcommand` on the arguments -/
  ReportUnknownSubcommand : List GoString → Option GoError

/-- The collaborators proper: what is left of `Env` once the JSON codec is fixed. -/
structure Collaborators where
  Host : String
  urlParse : String → Except GoError String
  Authenticate : Request → Except GoError Request
  Do : Request → Except GoError Response
  Render : Option GoMap → Option GoError
  MustWorkspaceClient : Option GoError
  ReportUnknownSubcommand : List GoString → Option GoError
  /-- the message `encoding/json` gives for a malformed input -/
  syntaxText : String → String

/-- The environment of the program as built: the collaborators, with the JSON
codec of `encoding/json`. -/
def goEnv (c : Collaborators) : Env :=
  { Host := c.Host
    Marshal := json_Marshal
    urlParse := c.urlParse
    Authenticate := c.Authenticate
    Do := c.Do
    Unmarshal := json_Unmarshal c.syntaxText
    Render := c.Render
    MustWorkspaceClient := c.MustWorkspaceClient
    ReportUnknownSubcommand := c.ReportUnknownSubcommand }

/-- The function `http.NewRequestWithContext(ctx, method, url, body)` for a
valid method and a non-nil context: the error of `url.Parse`, or a request with
that method and body, no header, and the parsed URL. -/
def http_NewRequestWithContext (env : Env) (method url body : String) :
    Except GoError Request :=
  match env.urlParse url with
  | .error err => .error err
  | .ok parsed => .ok ⟨method, parsed, [], body⟩

/-- A call a handler makes on a collaborator. -/
inductive Event where
  | authenticate (req : Request)
  | httpDo (req : Request)
  | unmarshal (data : String)
  | render (response : Option GoMap)
  | bodyClose

/-- What a handler did: the calls it made, in order, and the error it returned. -/
structure Outcome where
  trace : List Event
  err : Option GoError

/-- The requests handed to the HTTP client. -/
def httpCalls : List Event → List Request
  | [] => []
  | .httpDo r :: es => r :: httpCalls es
  | _ :: es => httpCalls es

/-- The requests handed to the authenticator. -/
def authCalls : List Event → List Request
  | [] => []
  | .authenticate r :: es => r :: authCalls es
  | _ :: es => authCalls es

/-- The values handed to the render sink. -/
def rendered : List Event → List (Option GoMap)
  | [] => []
  | .render m :: es => m :: rendered es
  | _ :: es => rendered es

/-- The texts handed to the JSON decoder. -/
def decoded : List Event → List String
  | [] => []
  | .unmarshal d :: es => d :: decoded es
  | _ :: es => decoded es

/-! ## `lineage-tracking.go`: the handlers -/

/-- The `RunE` closure of `newTableLineageCommand`; `includeEntityLineage` is
the flag variable it captures.  `none` is the panic of `args[0]`. -/
def tableLineageRunE (env : Env) (includeEntityLineage : Bool) (args : List GoString) :
    Option Outcome :=
  match args[0]? with
  | none => none
  | some a0 =>
    let reqBody : TableLineageRequest := ⟨a0, includeEntityLineage⟩
    match env.Marshal reqBody.fields with
    | .error err => some ⟨[], some (Errorf_w "failed to marshal request: " err)⟩
    | .ok jsonBody =>
      let url := env.Host ++ "/api/2.0/lineage-tracking/table-lineage"
      match http_NewRequestWithContext env "GET" url jsonBody with
      | .error err => some ⟨[], some (Errorf_w "failed to create request: " err)⟩
      | .ok req0 =>
        let req : Request := { req0 with Header := headerSet req0.Header "Content-Type" "application/json" }
        match env.Authenticate req with
        | .error err =>
          some ⟨[.authenticate req], some (Errorf_w "failed to authenticate: " err)⟩
        | .ok req1 =>
          match env.Do req1 with
          | .error err =>
            some ⟨[.authenticate req, .httpDo req1],
              some (Errorf_w "failed to execute request: " err)⟩
          | .ok resp =>
            match resp.Body with
            | .error err =>
              some ⟨[.authenticate req, .httpDo req1, .bodyClose],
                some (Errorf_w "failed to read response: " err)⟩
            | .ok body =>
              if resp.StatusCode ≠ 200 then
                some ⟨[.authenticate req, .httpDo req1, .bodyClose],
                  some (.formatted ("API error (status " ++ fmt_d resp.StatusCode ++ "): " ++ body))⟩
              else
                match env.Unmarshal body with
                | .error err =>
                  some ⟨[.authenticate req, .httpDo req1, .unmarshal body, .bodyClose],
                    some (Errorf_w "failed to parse response: " err)⟩
                | .ok response =>
                  some ⟨[.authenticate req, .httpDo req1, .unmarshal body, .render response,
                      .bodyClose], env.Render response⟩

/-- The `RunE` closure of `newColumnLineageCommand`.  `none` is the panic of
`args[0]` or `args[1]`. -/
def columnLineageRunE (env : Env) (args : List GoString) : Option Outcome :=
  match args[0]?, args[1]? with
  | some a0, some a1 =>
    let reqBody : ColumnLineageRequest := ⟨a0, a1⟩
    match env.Marshal reqBody.fields with
    | .error err => some ⟨[], some (Errorf_w "failed to marshal request: " err)⟩
    | .ok jsonBody =>
      let url := env.Host ++ "/api/2.0/lineage-tracking/column-lineage"
      match http_NewRequestWithContext env "GET" url jsonBody with
      | .error err => some ⟨[], some (Errorf_w "failed to create request: " err)⟩
      | .ok req0 =>
        let req : Request := { req0 with Header := headerSet req0.Header "Content-Type" "application/json" }
        match env.Authenticate req with
        | .error err =>
          some ⟨[.authenticate req], some (Errorf_w "failed to authenticate: " err)⟩
        | .ok req1 =>
          match env.Do req1 with
          | .error err =>
            some ⟨[.authenticate req, .httpDo req1],
              some (Errorf_w "failed to execute request: " err)⟩
          | .ok resp =>
            match resp.Body with
            | .error err =>
              some ⟨[.authenticate req, .httpDo req1, .bodyClose],
                some (Errorf_w "failed to read response: " err)⟩
            | .ok body =>
              if resp.StatusCode ≠ 200 then
                some ⟨[.authenticate req, .httpDo req1, .bodyClose],
                  some (.formatted ("API error (status " ++ fmt_d resp.StatusCode ++ "): " ++ body))⟩
              else
                match env.Unmarshal body with
                | .error err =>
                  some ⟨[.authenticate req, .httpDo req1, .unmarshal body, .bodyClose],
                    some (Errorf_w "failed to parse response: " err)⟩
                | .ok response =>
                  some ⟨[.authenticate req, .httpDo req1, .unmarshal body, .render response,
                      .bodyClose], env.Render response⟩
  | _, _ => none

/-! ## The shared execution pattern of the specification -/

/-- The shared HTTP execution of the specification (section 4.4), written from
its eight steps, for a request entity given by its fields and an endpoint
path.  A step that fails ends the run with that step's error. -/
def sharedExecute (env : Env) (payload : List StructField) (path : String) : Outcome :=
  -- 1. serialize the request entity to JSON
  match env.Marshal payload with
  | .error e => ⟨[], some (Errorf_w "failed to marshal request: " e)⟩
  | .ok json =>
  -- 2. construct an HTTP GET request with that body and the JSON content type
  match env.urlParse (env.Host ++ path) with
  | .error e => ⟨[], some (Errorf_w "failed to create request: " e)⟩
  | .ok url =>
  let request : Request := ⟨"GET", url, [("Content-Type", "application/json")], json⟩
  -- 3. apply authentication
  match env.Authenticate request with
  | .error e => ⟨[.authenticate request], some (Errorf_w "failed to authenticate: " e)⟩
  | .ok authed =>
  -- 4. execute the request
  match env.Do authed with
  | .error e =>
    ⟨[.authenticate request, .httpDo authed], some (Errorf_w "failed to execute request: " e)⟩
  | .ok resp =>
  let sent : List Event := [.authenticate request, .httpDo authed]
  -- 5. read the entire response body
  match resp.Body with
  | .error e => ⟨sent ++ [.bodyClose], some (Errorf_w "failed to read response: " e)⟩
  | .ok body =>
  -- 6. a status other than 200 is an API error with the code and the raw body
  if resp.StatusCode = 200 then
    -- 7. decode the body as a JSON object
    match env.Unmarshal body with
    | .error e =>
      ⟨sent ++ [.unmarshal body, .bodyClose], some (Errorf_w "failed to parse response: " e)⟩
    | .ok mapping =>
      -- 8. hand the mapping to the renderer; its failure propagates unchanged
      ⟨sent ++ [.unmarshal body, .render mapping, .bodyClose], env.Render mapping⟩
  else
    ⟨sent ++ [.bodyClose],
      some (.formatted ("API error (status " ++ fmt_d resp.StatusCode ++ "): " ++ body))⟩

/-! ## `lineage-tracking.go`: the command tree -/

/-- The function a command runs. -/
inductive RunKind where
  /-- the function `root.ReportUnknownSubcommand` -/
  | reportUnknownSubcommand
  /-- the closure of `newTableLineageCommand` -/
  | tableLineage
  /-- the closure of `newColumnLineageCommand` -/
  | columnLineage
  deriving DecidableEq, Repr

/-- A boolean flag defined with `Flags().BoolVar`. -/
structure BoolFlag where
  Name : String
  DefValue : Bool
  Usage : String
  deriving DecidableEq, Repr

/-- The fields of a `cobra.Command` this package sets.  `Args` is the count
given to `root.ExactArgs`, `PreRunE` whether the hook is
`root.MustWorkspaceClient`, `commands` the children added with `AddCommand`. -/
inductive Command where
  | mk (Use Short Long GroupID : String) (Args : Option Nat) (PreRunE : Bool)
      (RunE : Option RunKind) (Flags : List BoolFlag) (commands : List Command)

/-- The field `Use`. -/
def Command.Use : Command → String
  | .mk u _ _ _ _ _ _ _ _ => u

/-- The field `Short`. -/
def Command.Short : Command → String
  | .mk _ s _ _ _ _ _ _ _ => s

/-- The field `Long`. -/
def Command.Long : Command → String
  | .mk _ _ l _ _ _ _ _ _ => l

/-- The field `GroupID`. -/
def Command.GroupID : Command → String
  | .mk _ _ _ g _ _ _ _ _ => g

/-- The field `Args`, as the count given to `root.ExactArgs`. -/
def Command.Args : Command → Option Nat
  | .mk _ _ _ _ a _ _ _ _ => a

/-- Whether `PreRunE` is `root.MustWorkspaceClient`. -/
def Command.PreRunE : Command → Bool
  | .mk _ _ _ _ _ p _ _ _ => p

/-- The field `RunE`. -/
def Command.RunE : Command → Option RunKind
  | .mk _ _ _ _ _ _ r _ _ => r

/-- The flags of the command (`Flags()`). -/
def Command.Flags : Command → List BoolFlag
  | .mk _ _ _ _ _ _ _ f _ => f

/-- The field `commands`: the children of the command, in the order in which
`AddCommand` received them.  (The method `Commands()` returns the same children
sorted by name.) -/
def Command.commands : Command → List Command
  | .mk _ _ _ _ _ _ _ _ c => c

/-- The method `Flags().Lookup(name)`. -/
def Command.Lookup (c : Command) (name : String) : Option BoolFlag :=
  c.Flags.find? (fun f => f.Name == name)

/-- The method `AddCommand` with one child; a `*cobra.Command` is an `Option`,
`none` being the nil pointer, on which the method panics. -/
def AddCommand (c : Option Command) (x : Option Command) : Option Command :=
  match c, x with
  | some (.mk u s l g a p r f cs), some child => some (.mk u s l g a p r f (cs ++ [child]))
  | _, _ => none

/-- newTableLineageCommand returns the table-lineage subcommand. -/
def newTableLineageCommand : Option Command :=
  some (.mk "table-lineage TABLE_NAME" "Get table lineage"
    "Get table lineage for a Unity Catalog table.\n\nProvide a fully qualified table name like catalog.schema.table."
    "" (some 1) true (some .tableLineage)
    [⟨"include-entity-lineage", true,
      "Include notebook, job, or dashboard lineage when available"⟩] [])

/-- newColumnLineageCommand returns the column-lineage subcommand. -/
def newColumnLineageCommand : Option Command :=
  some (.mk "column-lineage TABLE_NAME COLUMN_NAME" "Get column lineage"
    "Get column lineage for a Unity Catalog table column.\n\nProvide a fully qualified table name like catalog.schema.table."
    "" (some 2) true (some .columnLineage) [] [])

/-- New returns the lineage-tracking root command. -/
def New : Option Command :=
  AddCommand
    (AddCommand
      (some (.mk "lineage-tracking" "Retrieve table and column lineage"
        "Retrieve Unity Catalog table and column lineage using the Data Lineage REST API."
        "catalog" none false (some .reportUnknownSubcommand) [] []))
      newTableLineageCommand)
    newColumnLineageCommand

/-! ## Running a command -/

/-- Modelled from the spec: `root.ExactArgs(n)` of package `cmd/root`, whose
source is not part of this package.  The specification (section 4.1): a leaf
command declares its required positional argument count and fails fast with a
usage error if the caller supplies the wrong count. -/
def root_ExactArgs (n : Nat) (args : List GoString) : Option GoError :=
  if args.length = n then none
  else some (.invalidArgs
    ("accepts " ++ Nat.repr n ++ " arg(s), received " ++ Nat.repr args.length))

/-- The value of the flag variable when the handler runs: the value given on
the command line, or the default of the flag definition. -/
def flagValue (c : Command) (name : String) (given : Option Bool) : Bool :=
  match given with
  | some b => b
  | none =>
    match c.Lookup name with
    | some f => f.DefValue
    | none => false

/-- The order in which `cobra` runs a command on its positional arguments:
the `Args` validator, then `PreRunE`, then `RunE`; the first error ends the
run.  `given` is the value of `--include-entity-lineage` on the command line,
if any.  `none` is a panic. -/
def execute (env : Env) (c : Command) (given : Option Bool) (args : List GoString) :
    Option Outcome :=
  let argsErr := match c.Args with
    | some n => root_ExactArgs n args
    | none => none
  match argsErr with
  | some err => some ⟨[], some err⟩
  | none =>
    match (if c.PreRunE then env.MustWorkspaceClient else none) with
    | some err => some ⟨[], some err⟩
    | none =>
      match c.RunE with
      | none => some ⟨[], none⟩
      | some .reportUnknownSubcommand => some ⟨[], env.ReportUnknownSubcommand args⟩
      | some .tableLineage =>
        tableLineageRunE env (flagValue c "include-entity-lineage" given) args
      | some .columnLineage => columnLineageRunE env args

/-! ## Sample collaborators -/

/-- Whether the character may occur in the host or path of a sample URL: an
ASCII letter or digit, a dot, a hyphen, an underscore or a slash. -/
def isPlainUrlChar (c : Char) : Bool :=
  c.isAlphanum || c == '.' || c == '-' || c == '_' || c == '/'

/-- For worked examples: what `url.Parse` followed by `String()` gives for a
URL `scheme://host/path` whose scheme is made of ASCII letters and whose host
and path are made of the characters of `isPlainUrlChar`: the scheme in lower
case, the rest as written.  Any other text is refused here; the examples use
none. -/
def sampleUrlParse (raw : String) : Except GoError String :=
  let scheme := raw.data.takeWhile (fun c => c != ':')
  let rest := raw.data.dropWhile (fun c => c != ':')
  match rest with
  | ':' :: '/' :: '/' :: tail =>
    if !scheme.isEmpty && scheme.all Char.isAlpha && tail.all isPlainUrlChar then
      .ok (String.mk (scheme.map Char.toLower ++ rest))
    else .error (.external "parse: outside the sample URLs")
  | _ => .error (.external "parse: outside the sample URLs")

/-- Collaborators for worked examples at a given host: URLs parsed by
`sampleUrlParse`, an authenticator that fails with `authErr` or adds a bearer
token, an HTTP client that gives `answer`, and a renderer that returns
`renderErr`. -/
def sampleCollaboratorsAt (host : String) (authErr : Option GoError)
    (answer : Except GoError Response) (renderErr : Option GoError) : Collaborators :=
  { Host := host
    urlParse := sampleUrlParse
    Authenticate := fun r =>
      match authErr with
      | some e => .error e
      | none => .ok { r with Header := headerSet r.Header "Authorization" "Bearer dapi0" }
    Do := fun _ => answer
    Render := fun _ => renderErr
    MustWorkspaceClient := none
    ReportUnknownSubcommand := fun _ => some (.external "unknown command")
    syntaxText := fun _ => "invalid character 'o' in literal null (expecting 'u')" }

/-- The sample collaborators at the host `https://adb-1.azuredatabricks.net`. -/
def sampleCollaborators (authErr : Option GoError) (answer : Except GoError Response)
    (renderErr : Option GoError) : Collaborators :=
  sampleCollaboratorsAt "https://adb-1.azuredatabricks.net" authErr answer renderErr

/-- The response of the permission example: status 403 and an error document. -/
def deniedResponse : Response :=
  ⟨403, .ok "\x7b\"error_code\": \"PERMISSION_DENIED\"\x7d"⟩

/-- An environment whose JSON encoder fails, for the serialization branch. -/
def brokenCodecEnv : Env :=
  { goEnv (sampleCollaborators none (.ok deniedResponse) none) with
    Marshal := fun _ => .error (.external "json: unsupported value") }

/-- The texts the handlers put in front of a wrapped error, one per step. -/
def stepTexts : List String :=
  ["failed to marshal request: ", "failed to create request: ", "failed to authenticate: ",
   "failed to execute request: ", "failed to read response: ", "failed to parse response: "]

/-- The endpoint path of the table-lineage handler. -/
def tablePath : String := "/api/2.0/lineage-tracking/table-lineage"

/-- The endpoint path of the column-lineage handler. -/
def columnPath : String := "/api/2.0/lineage-tracking/column-lineage"

/-- Whether the text is a valid JSON document whose value is an object. -/
def isObjectDocument (data : String) : Bool :=
  match parseDocument data with
  | none => false
  | some p =>
    match p.val with
    | .map _ => true
    | _ => false

/-- Whether the text is a valid JSON document whose value is the literal null. -/
def isNullDocument (data : String) : Bool :=
  match parseDocument data with
  | none => false
  | some p =>
    match p.val, p.err with
    | .nil, none => true
    | _, _ => false

/-- A decoder of one value makes progress: what it leaves is shorter than what
it was given. -/
def Progress (pv : List Char → Option Parsed) : Prop :=
  ∀ cs p, pv cs = some p → p.rest.length < cs.length

/-! # Theorems -/

set_option exponentiation.threshold 4000

/-! ## The two handlers follow the shared pattern -/

theorem tableLineageRunE_eq_shared (env : Env) (f : Bool) (t : GoString) :
    tableLineageRunE env f [t] =
      some (sharedExecute env (TableLineageRequest.fields ⟨t, f⟩)
        "/api/2.0/lineage-tracking/table-lineage") := by
  simp only [tableLineageRunE, sharedExecute, http_NewRequestWithContext,
    List.getElem?_cons_zero]
  cases env.Marshal (TableLineageRequest.fields ⟨t, f⟩) with
  | error e => rfl
  | ok body =>
    simp only []
    cases env.urlParse (env.Host ++ "/api/2.0/lineage-tracking/table-lineage") with
    | error e => rfl
    | ok u =>
      simp only [headerSet]
      cases env.Authenticate _ with
      | error e => rfl
      | ok r1 =>
        simp only []
        cases env.Do r1 with
        | error e => rfl
        | ok resp =>
          simp only []
          cases resp.Body with
          | error e => rfl
          | ok b =>
            simp only []
            by_cases hs : resp.StatusCode = 200
            · simp only [hs, ne_eq, not_true_eq_false, if_false, if_true]
              cases env.Unmarshal b <;> rfl
            · simp only [hs, ne_eq, not_false_eq_true, if_true, if_false]
              rfl

theorem columnLineageRunE_eq_shared (env : Env) (t c : GoString) :
    columnLineageRunE env [t, c] =
      some (sharedExecute env (ColumnLineageRequest.fields ⟨t, c⟩)
        "/api/2.0/lineage-tracking/column-lineage") := by
  simp only [columnLineageRunE, sharedExecute, http_NewRequestWithContext,
    List.getElem?_cons_zero, List.getElem?_cons_succ]
  cases env.Marshal (ColumnLineageRequest.fields ⟨t, c⟩) with
  | error e => rfl
  | ok body =>
    simp only []
    cases env.urlParse (env.Host ++ "/api/2.0/lineage-tracking/column-lineage") with
    | error e => rfl
    | ok u =>
      simp only [headerSet]
      cases env.Authenticate _ with
      | error e => rfl
      | ok r1 =>
        simp only []
        cases env.Do r1 with
        | error e => rfl
        | ok resp =>
          simp only []
          cases resp.Body with
          | error e => rfl
          | ok b =>
            simp only []
            by_cases hs : resp.StatusCode = 200
            · simp only [hs, ne_eq, not_true_eq_false, if_false, if_true]
              cases env.Unmarshal b <;> rfl
            · simp only [hs, ne_eq, not_false_eq_true, if_true, if_false]
              rfl

/-- Either handler, on arguments of the accepted count, is the shared pattern
at some payload and path. -/
theorem handler_is_shared (env : Env) (f : Bool) (t c : GoString) (out : Outcome)
    (hrun : tableLineageRunE env f [t] = some out ∨ columnLineageRunE env [t, c] = some out) :
    ∃ payload path, out = sharedExecute env payload path := by
  rcases hrun with h | h
  · rw [tableLineageRunE_eq_shared] at h
    exact ⟨_, _, (Option.some.inj h).symm⟩
  · rw [columnLineageRunE_eq_shared] at h
    exact ⟨_, _, (Option.some.inj h).symm⟩

/-! ## Reading the trace of the shared pattern -/

/-- If the authenticator was called, the first two steps succeeded and it was
called on the request built from their results. -/
theorem shared_authCalls (env : Env) (payload : List StructField) (path : String)
    (r : Request) (h : authCalls (sharedExecute env payload path).trace = [r]) :
    ∃ json url, env.Marshal payload = .ok json ∧ env.urlParse (env.Host ++ path) = .ok url ∧
      r = ⟨"GET", url, [("Content-Type", "application/json")], json⟩ := by
  unfold sharedExecute at h
  cases h1 : env.Marshal payload with
  | error e => simp [h1, authCalls] at h
  | ok json =>
    simp only [h1] at h
    cases h2 : env.urlParse (env.Host ++ path) with
    | error e => simp [h2, authCalls] at h
    | ok url =>
      simp only [h2] at h
      refine ⟨json, url, rfl, rfl, ?_⟩
      cases h3 : env.Authenticate ⟨"GET", url,
          [("Content-Type", "application/json")], json⟩ with
      | error e => simpa [h3, authCalls, eq_comm] using h
      | ok authed =>
        simp only [h3] at h
        cases h4 : env.Do authed with
        | error e => simpa [h4, authCalls, eq_comm] using h
        | ok resp =>
          simp only [h4] at h
          cases h5 : resp.Body with
          | error e => simpa [h5, authCalls, eq_comm] using h
          | ok body =>
            simp only [h5] at h
            split at h
            · cases h6 : env.Unmarshal body <;> simpa [h6, authCalls, eq_comm] using h
            · simpa [authCalls, eq_comm] using h

/-- If the HTTP client was called, the first three steps succeeded and it was
called on the request the authenticator returned. -/
theorem shared_httpCalls (env : Env) (payload : List StructField) (path : String)
    (r : Request) (h : httpCalls (sharedExecute env payload path).trace = [r]) :
    ∃ json url, env.Marshal payload = .ok json ∧ env.urlParse (env.Host ++ path) = .ok url ∧
      env.Authenticate ⟨"GET", url, [("Content-Type", "application/json")], json⟩
        = .ok r := by
  unfold sharedExecute at h
  cases h1 : env.Marshal payload with
  | error e => simp [h1, httpCalls] at h
  | ok json =>
    simp only [h1] at h
    cases h2 : env.urlParse (env.Host ++ path) with
    | error e => simp [h2, httpCalls] at h
    | ok url =>
      simp only [h2] at h
      refine ⟨json, url, rfl, rfl, ?_⟩
      cases h3 : env.Authenticate ⟨"GET", url,
          [("Content-Type", "application/json")], json⟩ with
      | error e => simp [h3, httpCalls] at h
      | ok authed =>
        simp only [h3] at h
        cases h4 : env.Do authed with
        | error e => simpa [h4, httpCalls] using h
        | ok resp =>
          simp only [h4] at h
          cases h5 : resp.Body with
          | error e => simpa [h5, httpCalls] using h
          | ok body =>
            simp only [h5] at h
            split at h
            · cases h6 : env.Unmarshal body <;> simpa [h6, httpCalls] using h
            · simpa [httpCalls] using h

/-- The shared pattern on a response with a status other than 200. -/
theorem shared_api_error (env : Env) (payload : List StructField) (path : String)
    (s : Int) (b : String) (r : Request) (hs : s ≠ 200)
    (hcalls : httpCalls (sharedExecute env payload path).trace = [r])
    (hdo : env.Do r = .ok ⟨s, .ok b⟩) :
    (sharedExecute env payload path).err =
        some (.formatted ("API error (status " ++ fmt_d s ++ "): " ++ b)) ∧
      decoded (sharedExecute env payload path).trace = [] ∧
      rendered (sharedExecute env payload path).trace = [] := by
  obtain ⟨json, url, h1, h2, h3⟩ := shared_httpCalls env payload path r hcalls
  simp [sharedExecute, h1, h2, h3, hdo, hs, decoded, rendered]

theorem contains_append_left (p s q : String) : Contains (p ++ s ++ q) s := by
  refine ⟨p.data, q.data, ?_⟩
  simp [String.data_append]

/-- C3: for both commands, a response whose status `s` is not 200 makes the
command fail with an API error whose text holds the decimal rendering of `s`
and the body `b` as it came; the body is neither decoded nor rendered. -/
theorem api_error_embeds_status_and_body (env : Env) (f : Bool) (t c : GoString)
    (out : Outcome) (r : Request) (s : Int) (b : String)
    (hrun : tableLineageRunE env f [t] = some out ∨ columnLineageRunE env [t, c] = some out)
    (hcalls : httpCalls out.trace = [r]) (hdo : env.Do r = .ok ⟨s, .ok b⟩) (hs : s ≠ 200) :
    ∃ e, out.err = some e ∧
      e = .formatted ("API error (status " ++ fmt_d s ++ "): " ++ b) ∧
      Contains e.Error (fmt_d s) ∧ Contains e.Error b ∧
      decoded out.trace = [] ∧ rendered out.trace = [] := by
  obtain ⟨payload, path, rfl⟩ := handler_is_shared env f t c out hrun
  obtain ⟨h1, h2, h3⟩ := shared_api_error env payload path s b r hs hcalls hdo
  refine ⟨_, h1, rfl, ?_, ?_, h2, h3⟩
  · have := contains_append_left "API error (status " (fmt_d s) ("): " ++ b)
    simpa [GoError.Error, String.append_assoc] using this
  · have := contains_append_left ("API error (status " ++ fmt_d s ++ "): ") b ""
    simpa [GoError.Error, String.append_assoc] using this

/-- Example for C3: status 403 with a permission error document; the error text
holds both `403` and `PERMISSION_DENIED`, and nothing is rendered. -/
theorem api_error_embeds_status_and_body_witness :
    ∃ out e, tableLineageRunE (goEnv (sampleCollaborators none (.ok deniedResponse) none)) true
        [asciiBytes "catalog1.schema1.table1"] = some out ∧
      out.err = some e ∧ Contains e.Error "403" ∧ Contains e.Error "PERMISSION_DENIED" ∧
      rendered out.trace = [] := by
  obtain ⟨e, h1, h2, -, -, -, h6⟩ :=
    api_error_embeds_status_and_body (goEnv (sampleCollaborators none (.ok deniedResponse) none))
      true (asciiBytes "catalog1.schema1.table1") [] _ _ 403 _
      (Or.inl (tableLineageRunE_eq_shared _ _ _)) rfl rfl (by decide)
  refine ⟨_, e, tableLineageRunE_eq_shared _ _ _, h1, ?_, ?_, h6⟩
  · subst h2; decide
  · subst h2; decide

theorem beginsWith_append (pre q : String) : BeginsWith (pre ++ q) pre := by
  refine ⟨q.data, ?_⟩
  simp [String.data_append]

theorem shared_marshal_error (env : Env) (payload : List StructField) (path : String)
    (e : GoError) (h : env.Marshal payload = .error e) :
    sharedExecute env payload path = ⟨[], some (Errorf_w "failed to marshal request: " e)⟩ := by
  simp [sharedExecute, h]

theorem shared_auth_error (env : Env) (payload : List StructField) (path : String)
    (r : Request) (e : GoError)
    (hcalls : authCalls (sharedExecute env payload path).trace = [r])
    (hauth : env.Authenticate r = .error e) :
    (sharedExecute env payload path).err = some (Errorf_w "failed to authenticate: " e) ∧
      httpCalls (sharedExecute env payload path).trace = [] ∧
      decoded (sharedExecute env payload path).trace = [] ∧
      rendered (sharedExecute env payload path).trace = [] := by
  obtain ⟨json, url, h1, h2, rfl⟩ := shared_authCalls env payload path r hcalls
  simp [sharedExecute, h1, h2, hauth, httpCalls, decoded, rendered]

/-- C7: for both commands, when the authenticator returns an error for the
outgoing request the command fails with an authentication error that wraps it,
the HTTP client is not called and nothing is rendered; when serializing the
request fails the command returns the wrapped error without calling any
collaborator. -/
theorem auth_or_marshal_failure_aborts (env : Env) (f : Bool) (t c : GoString) (out : Outcome)
    (hrun : tableLineageRunE env f [t] = some out ∨ columnLineageRunE env [t, c] = some out) :
    (∀ r e, authCalls out.trace = [r] → env.Authenticate r = .error e →
      out.err = some (Errorf_w "failed to authenticate: " e) ∧
      (Errorf_w "failed to authenticate: " e).Unwrap = some e ∧
      httpCalls out.trace = [] ∧ rendered out.trace = []) ∧
    (∀ e, (tableLineageRunE env f [t] = some out ∧
            env.Marshal (TableLineageRequest.fields ⟨t, f⟩) = .error e) ∨
          (columnLineageRunE env [t, c] = some out ∧
            env.Marshal (ColumnLineageRequest.fields ⟨t, c⟩) = .error e) →
      out.err = some (Errorf_w "failed to marshal request: " e) ∧
      (Errorf_w "failed to marshal request: " e).Unwrap = some e ∧ out.trace = []) := by
  constructor
  · intro r e hcalls hauth
    obtain ⟨payload, path, rfl⟩ := handler_is_shared env f t c out hrun
    obtain ⟨h1, h2, -, h4⟩ := shared_auth_error env payload path r e hcalls hauth
    exact ⟨h1, rfl, h2, h4⟩
  · intro e h
    rcases h with ⟨h, hm⟩ | ⟨h, hm⟩
    · rw [tableLineageRunE_eq_shared, shared_marshal_error _ _ _ _ hm] at h
      cases h
      exact ⟨rfl, rfl, rfl⟩
    · rw [columnLineageRunE_eq_shared, shared_marshal_error _ _ _ _ hm] at h
      cases h
      exact ⟨rfl, rfl, rfl⟩

/-- Example for C7: an authenticator that fails with an expired token, and an
encoder that fails; in both runs the HTTP client is not called. -/
theorem auth_or_marshal_failure_aborts_witness :
    (∃ out, tableLineageRunE
        (goEnv (sampleCollaborators (some (.external "token expired")) (.ok deniedResponse) none))
        true [asciiBytes "catalog1.schema1.table1"] = some out ∧
      out.err = some (Errorf_w "failed to authenticate: " (.external "token expired")) ∧
      httpCalls out.trace = [] ∧ rendered out.trace = []) ∧
    (∃ out, columnLineageRunE brokenCodecEnv [asciiBytes "catalog1.schema1.table1", asciiBytes "id"]
        = some out ∧
      out.err = some (Errorf_w "failed to marshal request: "
        (.external "json: unsupported value")) ∧
      out.trace = []) := by
  constructor
  · have h := (auth_or_marshal_failure_aborts
      (goEnv (sampleCollaborators (some (.external "token expired")) (.ok deniedResponse) none))
      true (asciiBytes "catalog1.schema1.table1") [] _ (Or.inl (tableLineageRunE_eq_shared _ _ _))).1
      _ (.external "token expired") rfl rfl
    exact ⟨_, tableLineageRunE_eq_shared _ _ _, h.1, h.2.2.1, h.2.2.2⟩
  · have h := (auth_or_marshal_failure_aborts brokenCodecEnv true (asciiBytes "catalog1.schema1.table1")
      (asciiBytes "id")
      _ (Or.inr (columnLineageRunE_eq_shared _ _ _))).2 (.external "json: unsupported value")
      (Or.inr ⟨columnLineageRunE_eq_shared _ _ _, rfl⟩)
    exact ⟨_, columnLineageRunE_eq_shared _ _ _, h.1, h.2.2⟩

/-! ## Which text goes with which step -/

/-- The error of the shared pattern, step by step. -/
theorem shared_error_by_step (env : Env) (payload : List StructField) (path : String) :
    (∀ e, env.Marshal payload = .error e →
      (sharedExecute env payload path).err = some (Errorf_w "failed to marshal request: " e)) ∧
    (∀ json, env.Marshal payload = .ok json →
      (∀ e, env.urlParse (env.Host ++ path) = .error e →
        (sharedExecute env payload path).err =
          some (Errorf_w "failed to create request: " e)) ∧
      (∀ url, env.urlParse (env.Host ++ path) = .ok url →
        (∀ e, env.Authenticate ⟨"GET", url, [("Content-Type", "application/json")], json⟩
            = .error e →
          (sharedExecute env payload path).err =
            some (Errorf_w "failed to authenticate: " e)) ∧
        (∀ authed, env.Authenticate ⟨"GET", url, [("Content-Type", "application/json")], json⟩
            = .ok authed →
          (∀ e, env.Do authed = .error e →
            (sharedExecute env payload path).err =
              some (Errorf_w "failed to execute request: " e)) ∧
          (∀ resp, env.Do authed = .ok resp →
            (∀ e, resp.Body = .error e →
              (sharedExecute env payload path).err =
                some (Errorf_w "failed to read response: " e)) ∧
            (∀ body, resp.Body = .ok body →
              (resp.StatusCode ≠ 200 →
                (sharedExecute env payload path).err = some (.formatted
                  ("API error (status " ++ fmt_d resp.StatusCode ++ "): " ++ body))) ∧
              (resp.StatusCode = 200 →
                (∀ e, env.Unmarshal body = .error e →
                  (sharedExecute env payload path).err =
                    some (Errorf_w "failed to parse response: " e)) ∧
                (∀ m, env.Unmarshal body = .ok m →
                  (sharedExecute env payload path).err = env.Render m ∧
                  rendered (sharedExecute env payload path).trace = [m]))))))) := by
  refine ⟨fun e h1 => by simp [sharedExecute, h1], fun json h1 => ⟨fun e h2 => by
    simp [sharedExecute, h1, h2], fun url h2 => ⟨fun e h3 => by
    simp [sharedExecute, h1, h2, h3], fun authed h3 => ⟨fun e h4 => by
    simp [sharedExecute, h1, h2, h3, h4], fun resp h4 => ⟨fun e h5 => by
    simp [sharedExecute, h1, h2, h3, h4, h5], fun body h5 => ⟨fun hs => by
    simp [sharedExecute, h1, h2, h3, h4, h5, hs], fun hs => ⟨fun e h6 => by
    simp [sharedExecute, h1, h2, h3, h4, h5, hs, h6], fun m h6 => by
    simp [sharedExecute, h1, h2, h3, h4, h5, hs, h6, rendered]⟩⟩⟩⟩⟩⟩⟩

/-- C6 (as amended): in either handler, a failure of each step before
rendering is returned behind that step's own text, which wraps the step's
error: serialization behind "failed to marshal request: ", request
construction behind "failed to create request: ", authentication behind
"failed to authenticate: ", the HTTP call behind "failed to execute request: ",
reading the body behind "failed to read response: ", decoding behind
"failed to parse response: "; a status other than 200 gives the error that
begins "API error (status "; and the error of the render sink is returned as
the sink gave it. -/
theorem each_step_error_carries_its_text (env : Env) (f : Bool) (t c : GoString)
    (out : Outcome) (payload : List StructField) (path : String)
    (hrun : (tableLineageRunE env f [t] = some out ∧
        payload = TableLineageRequest.fields ⟨t, f⟩ ∧
        path = "/api/2.0/lineage-tracking/table-lineage") ∨
      (columnLineageRunE env [t, c] = some out ∧
        payload = ColumnLineageRequest.fields ⟨t, c⟩ ∧
        path = "/api/2.0/lineage-tracking/column-lineage")) :
    (∀ e, env.Marshal payload = .error e →
      out.err = some (Errorf_w "failed to marshal request: " e)) ∧
    (∀ json, env.Marshal payload = .ok json →
      (∀ e, env.urlParse (env.Host ++ path) = .error e →
        out.err = some (Errorf_w "failed to create request: " e)) ∧
      (∀ url, env.urlParse (env.Host ++ path) = .ok url →
        (∀ e, env.Authenticate ⟨"GET", url, [("Content-Type", "application/json")], json⟩
            = .error e →
          out.err = some (Errorf_w "failed to authenticate: " e)) ∧
        (∀ authed, env.Authenticate ⟨"GET", url, [("Content-Type", "application/json")], json⟩
            = .ok authed →
          (∀ e, env.Do authed = .error e →
            out.err = some (Errorf_w "failed to execute request: " e)) ∧
          (∀ resp, env.Do authed = .ok resp →
            (∀ e, resp.Body = .error e →
              out.err = some (Errorf_w "failed to read response: " e)) ∧
            (∀ body, resp.Body = .ok body →
              (resp.StatusCode ≠ 200 →
                out.err = some (.formatted
                  ("API error (status " ++ fmt_d resp.StatusCode ++ "): " ++ body))) ∧
              (resp.StatusCode = 200 →
                (∀ e, env.Unmarshal body = .error e →
                  out.err = some (Errorf_w "failed to parse response: " e)) ∧
                (∀ m, env.Unmarshal body = .ok m →
                  out.err = env.Render m ∧ rendered out.trace = [m]))))))) ∧
    (∀ pre e, (Errorf_w pre e).Unwrap = some e ∧ BeginsWith (Errorf_w pre e).Error pre) ∧
    (∀ s b, BeginsWith
      (GoError.formatted ("API error (status " ++ fmt_d s ++ "): " ++ b)).Error
      "API error (status ") := by
  have hout : out = sharedExecute env payload path := by
    rcases hrun with ⟨h, rfl, rfl⟩ | ⟨h, rfl, rfl⟩
    · rw [tableLineageRunE_eq_shared] at h
      exact (Option.some.inj h).symm
    · rw [columnLineageRunE_eq_shared] at h
      exact (Option.some.inj h).symm
  subst hout
  refine ⟨(shared_error_by_step env payload path).1, (shared_error_by_step env payload path).2,
    fun pre e => ⟨rfl, beginsWith_append _ _⟩, fun s b => ?_⟩
  have := beginsWith_append "API error (status " (fmt_d s ++ "): " ++ b)
  simpa [GoError.Error, String.append_assoc] using this

/-- Example for C6: with a client that fails, the error is behind the text of
the HTTP call; with a body that cannot be read, behind the text of the read. -/
theorem each_step_error_carries_its_text_witness :
    (∃ out, tableLineageRunE
        (goEnv (sampleCollaborators none (.error (.external "dial tcp: timeout")) none))
        true [asciiBytes "catalog1.schema1.table1"] = some out ∧
      out.err = some (Errorf_w "failed to execute request: " (.external "dial tcp: timeout"))) ∧
    (∃ out, columnLineageRunE
        (goEnv (sampleCollaborators none (.ok ⟨200, .error (.external "unexpected EOF")⟩) none))
        [asciiBytes "catalog1.schema1.table1", asciiBytes "id"] = some out ∧
      out.err = some (Errorf_w "failed to read response: " (.external "unexpected EOF"))) := by
  constructor
  · have h := (((((each_step_error_carries_its_text
      (goEnv (sampleCollaborators none (.error (.external "dial tcp: timeout")) none))
      true (asciiBytes "catalog1.schema1.table1") [] _ _ _
      (Or.inl ⟨tableLineageRunE_eq_shared _ _ _, rfl, rfl⟩)).2.1 _ rfl).2 _ rfl).2 _ rfl).1
      (.external "dial tcp: timeout") rfl)
    exact ⟨_, tableLineageRunE_eq_shared _ _ _, h⟩
  · have h := ((((((each_step_error_carries_its_text
      (goEnv (sampleCollaborators none (.ok ⟨200, .error (.external "unexpected EOF")⟩) none))
      true (asciiBytes "catalog1.schema1.table1") (asciiBytes "id") _ _ _
      (Or.inr ⟨columnLineageRunE_eq_shared _ _ _, rfl, rfl⟩)).2.1 _ rfl).2 _ rfl).2 _ rfl).2
      _ rfl).1 (.external "unexpected EOF") rfl)
    exact ⟨_, columnLineageRunE_eq_shared _ _ _, h⟩

/-- C6, the claim as stated fails: with a render sink that fails, the command
returns the sink's own error, with nothing put in front of it. -/
theorem render_error_is_returned_bare :
    ∃ out, tableLineageRunE
        (goEnv (sampleCollaborators none (.ok ⟨200, .ok "\x7b\x7d"⟩)
          (some (.external "write /dev/stdout: broken pipe"))))
        true [asciiBytes "catalog1.schema1.table1"] = some out ∧
      rendered out.trace = [some []] ∧
      out.err = some (.external "write /dev/stdout: broken pipe") ∧
      (∀ pre ∈ "API error (status " :: stepTexts,
        ¬ BeginsWith "write /dev/stdout: broken pipe" pre) := by
  refine ⟨_, tableLineageRunE_eq_shared _ _ _, rfl, rfl, by decide⟩

/-! ## The request -/

/-- The shared pattern up to the HTTP call: the request built, and the request sent. -/
theorem shared_requests (env : Env) (payload : List StructField) (path json url : String)
    (authed : Request) (h1 : env.Marshal payload = .ok json)
    (h2 : env.urlParse (env.Host ++ path) = .ok url)
    (h3 : env.Authenticate
      ⟨"GET", url, [("Content-Type", "application/json")], json⟩ = .ok authed) :
    authCalls (sharedExecute env payload path).trace =
        [⟨"GET", url, [("Content-Type", "application/json")], json⟩] ∧
      httpCalls (sharedExecute env payload path).trace = [authed] := by
  unfold sharedExecute
  simp only [h1, h2, h3]
  cases h4 : env.Do authed with
  | error e => simp [authCalls, httpCalls]
  | ok resp =>
    simp only []
    cases h5 : resp.Body with
    | error e => simp [authCalls, httpCalls]
    | ok body =>
      simp only []
      split
      · cases h6 : env.Unmarshal body <;> simp [authCalls, httpCalls]
      · simp [authCalls, httpCalls]

/-- C9 (as amended): for every host, the request either handler builds has
method GET, the URL that parsing the text "host followed by the endpoint path"
gives, the JSON content type as its only header and the serialized request
as body; it goes to the authenticator, and what the authenticator returns goes
to the HTTP client.  Both handlers are the shared pattern, at their own
payload and path. -/
theorem handlers_share_the_request_shape (env : Env) (f : Bool) (t c : GoString) :
    tableLineageRunE env f [t] =
        some (sharedExecute env (TableLineageRequest.fields ⟨t, f⟩) tablePath) ∧
    columnLineageRunE env [t, c] =
        some (sharedExecute env (ColumnLineageRequest.fields ⟨t, c⟩) columnPath) ∧
    (∀ out json url authed, tableLineageRunE env f [t] = some out →
      env.Marshal (TableLineageRequest.fields ⟨t, f⟩) = .ok json →
      env.urlParse (env.Host ++ "/api/2.0/lineage-tracking/table-lineage") = .ok url →
      env.Authenticate ⟨"GET", url, [("Content-Type", "application/json")], json⟩
        = .ok authed →
      authCalls out.trace = [⟨"GET", url, [("Content-Type", "application/json")], json⟩] ∧
      httpCalls out.trace = [authed]) ∧
    (∀ out json url authed, columnLineageRunE env [t, c] = some out →
      env.Marshal (ColumnLineageRequest.fields ⟨t, c⟩) = .ok json →
      env.urlParse (env.Host ++ "/api/2.0/lineage-tracking/column-lineage") = .ok url →
      env.Authenticate ⟨"GET", url, [("Content-Type", "application/json")], json⟩
        = .ok authed →
      authCalls out.trace = [⟨"GET", url, [("Content-Type", "application/json")], json⟩] ∧
      httpCalls out.trace = [authed]) := by
  refine ⟨tableLineageRunE_eq_shared env f t, columnLineageRunE_eq_shared env t c, ?_, ?_⟩
  · intro out json url authed hrun h1 h2 h3
    rw [tableLineageRunE_eq_shared] at hrun
    cases hrun
    exact shared_requests env _ _ json url authed h1 h2 h3
  · intro out json url authed hrun h1 h2 h3
    rw [columnLineageRunE_eq_shared] at hrun
    cases hrun
    exact shared_requests env _ _ json url authed h1 h2 h3

/-- Example for C9: at the host `https://adb-1.azuredatabricks.net` the URL of
the request reads exactly the host followed by the path; the request sent
carries the header the authenticator added. -/
theorem handlers_share_the_request_shape_witness :
    ∃ out, tableLineageRunE (goEnv (sampleCollaborators none (.ok deniedResponse) none)) true
        [asciiBytes "catalog1.schema1.table1"] = some out ∧
      authCalls out.trace = [⟨"GET",
        "https://adb-1.azuredatabricks.net" ++ "/api/2.0/lineage-tracking/table-lineage",
        [("Content-Type", "application/json")],
        "\x7b\"table_name\":\"catalog1.schema1.table1\",\"include_entity_lineage\":true\x7d"⟩] ∧
      httpCalls out.trace = [⟨"GET",
        "https://adb-1.azuredatabricks.net/api/2.0/lineage-tracking/table-lineage",
        [("Content-Type", "application/json"), ("Authorization", "Bearer dapi0")],
        "\x7b\"table_name\":\"catalog1.schema1.table1\",\"include_entity_lineage\":true\x7d"⟩] := by
  have h := (handlers_share_the_request_shape
    (goEnv (sampleCollaborators none (.ok deniedResponse) none)) true
    (asciiBytes "catalog1.schema1.table1") []).2.2.1 _ _ _ _
    (tableLineageRunE_eq_shared _ _ _) rfl rfl rfl
  exact ⟨_, tableLineageRunE_eq_shared _ _ _, h.1, h.2⟩

/-- C9, the claim as stated fails: with the host written
`HTTPS://Adb-1.AzureDatabricks.net` the URL of the request has the scheme in
lower case, so it is not the host followed by the path. -/
theorem request_url_is_not_always_host_and_path :
    ∃ out r, tableLineageRunE
        (goEnv (sampleCollaboratorsAt "HTTPS://Adb-1.AzureDatabricks.net" none
          (.ok deniedResponse) none))
        true [asciiBytes "catalog1.schema1.table1"] = some out ∧
      authCalls out.trace = [r] ∧
      r.URL = "https://Adb-1.AzureDatabricks.net/api/2.0/lineage-tracking/table-lineage" ∧
      r.URL ≠ "HTTPS://Adb-1.AzureDatabricks.net" ++ "/api/2.0/lineage-tracking/table-lineage" ∧
      (httpCalls out.trace).map Request.URL =
        ["https://Adb-1.AzureDatabricks.net/api/2.0/lineage-tracking/table-lineage"] :=
  ⟨_, _, tableLineageRunE_eq_shared _ _ _, rfl, rfl, by decide, rfl⟩

/-- C8: with a number of positional arguments other than 1 (table-lineage) or
other than 2 (column-lineage) the run ends with a usage error before the
pre-run hook and the handler, so no collaborator is called; with the accepted
number the handler's accesses to `args` are in bounds (it does not panic). -/
theorem wrong_arg_count_is_usage_error (env : Env) (given : Option Bool) (f : Bool)
    (args : List GoString) :
    (args.length ≠ 1 → ∃ e, newTableLineageCommand.bind (fun cmd => execute env cmd given args)
        = some ⟨[], some e⟩ ∧ e.isUsage = true) ∧
    (args.length ≠ 2 → ∃ e, newColumnLineageCommand.bind (fun cmd => execute env cmd given args)
        = some ⟨[], some e⟩ ∧ e.isUsage = true) ∧
    (args.length = 1 → (tableLineageRunE env f args).isSome = true) ∧
    (args.length = 2 → (columnLineageRunE env args).isSome = true) := by
  refine ⟨?_, ?_, ?_, ?_⟩
  · intro h
    refine ⟨.invalidArgs ("accepts " ++ Nat.repr 1 ++ " arg(s), received " ++
      Nat.repr args.length), ?_, rfl⟩
    simp only [newTableLineageCommand, Option.some_bind, execute, Command.Args, root_ExactArgs,
      if_neg h]
  · intro h
    refine ⟨.invalidArgs ("accepts " ++ Nat.repr 2 ++ " arg(s), received " ++
      Nat.repr args.length), ?_, rfl⟩
    simp only [newColumnLineageCommand, Option.some_bind, execute, Command.Args, root_ExactArgs,
      if_neg h]
  · intro h
    match args, h with
    | [t], _ => rw [tableLineageRunE_eq_shared]; rfl
  · intro h
    match args, h with
    | [t, c], _ => rw [columnLineageRunE_eq_shared]; rfl

/-- Example for C8: two arguments to table-lineage give a usage error and an
empty trace; one argument runs the handler. -/
theorem wrong_arg_count_is_usage_error_witness :
    (∃ e, newTableLineageCommand.bind
        (fun cmd => execute (goEnv (sampleCollaborators none (.ok deniedResponse) none)) cmd none
          [asciiBytes "catalog1.schema1.table1", asciiBytes "extra"]) = some ⟨[], some e⟩ ∧ e.isUsage = true) ∧
    (tableLineageRunE (goEnv (sampleCollaborators none (.ok deniedResponse) none)) true
        [asciiBytes "catalog1.schema1.table1"]).isSome = true :=
  ⟨(wrong_arg_count_is_usage_error (goEnv (sampleCollaborators none (.ok deniedResponse) none))
      none true [asciiBytes "catalog1.schema1.table1", asciiBytes "extra"]).1 (by decide),
   (wrong_arg_count_is_usage_error (goEnv (sampleCollaborators none (.ok deniedResponse) none))
      none true [asciiBytes "catalog1.schema1.table1"]).2.2.1 rfl⟩

/-- C10: `New` returns a command (not nil) with `Use` "lineage-tracking", the
given `Short`, group "catalog", and exactly two children: table-lineage, whose
`Long` holds "Get table lineage" and which has the boolean flag
include-entity-lineage with default true, and column-lineage, whose `Long`
holds "Get column lineage" and which has no flags. -/
theorem New_builds_the_command_tree :
    ∃ root table column, New = some root ∧
      root.Use = "lineage-tracking" ∧ root.Short = "Retrieve table and column lineage" ∧
      root.GroupID = "catalog" ∧ root.commands = [table, column] ∧
      newTableLineageCommand = some table ∧ newColumnLineageCommand = some column ∧
      table.Use = "table-lineage TABLE_NAME" ∧ Contains table.Long "Get table lineage" ∧
      (∃ usage, table.Lookup "include-entity-lineage"
        = some ⟨"include-entity-lineage", true, usage⟩) ∧
      column.Use = "column-lineage TABLE_NAME COLUMN_NAME" ∧
      Contains column.Long "Get column lineage" ∧ column.Flags = [] := by
  refine ⟨_, _, _, rfl, rfl, rfl, rfl, rfl, rfl, rfl, rfl, by decide, ⟨_, rfl⟩, rfl, by decide, rfl⟩

/-! ## Responses with status 200 -/

/-- The decoder rejects every document that is neither an object nor null. -/
theorem json_Unmarshal_error_of_not_object (syn : String → String) (body : String)
    (hobj : isObjectDocument body = false) (hnull : isNullDocument body = false) :
    ∃ cause, json_Unmarshal syn body = .error cause := by
  unfold json_Unmarshal
  unfold isObjectDocument at hobj
  unfold isNullDocument at hnull
  cases hp : parseDocument body with
  | none => exact ⟨_, rfl⟩
  | some p =>
    obtain ⟨val, err, rest⟩ := p
    simp only [hp] at hobj hnull ⊢
    cases val with
    | nil =>
      cases err with
      | none => simp at hnull
      | some e => exact ⟨_, rfl⟩
    | map kvs => simp at hobj
    | bool b => exact ⟨_, rfl⟩
    | float64 l => exact ⟨_, rfl⟩
    | string s => exact ⟨_, rfl⟩
    | slice xs => exact ⟨_, rfl⟩

/-- The decoder accepts an object whose numbers are all in range. -/
theorem json_Unmarshal_of_object (syn : String → String) (body : String) (kvs : GoMap)
    (rest : List Char) (hdoc : parseDocument body = some ⟨.map kvs, none, rest⟩) :
    json_Unmarshal syn body = .ok (some kvs) := by
  simp [json_Unmarshal, hdoc]

/-- The shared pattern on a response with status 200. -/
theorem shared_status_ok (env : Env) (payload : List StructField) (path : String)
    (b : String) (r : Request)
    (hcalls : httpCalls (sharedExecute env payload path).trace = [r])
    (hdo : env.Do r = .ok ⟨200, .ok b⟩) :
    (∀ cause, env.Unmarshal b = .error cause →
      (sharedExecute env payload path).err = some (Errorf_w "failed to parse response: " cause) ∧
      decoded (sharedExecute env payload path).trace = [b] ∧
      rendered (sharedExecute env payload path).trace = []) ∧
    (∀ m, env.Unmarshal b = .ok m →
      (sharedExecute env payload path).err = env.Render m ∧
      decoded (sharedExecute env payload path).trace = [b] ∧
      rendered (sharedExecute env payload path).trace = [m]) := by
  obtain ⟨json, url, h1, h2, h3⟩ := shared_httpCalls env payload path r hcalls
  constructor
  · intro cause hu
    simp [sharedExecute, h1, h2, h3, hdo, hu, decoded, rendered]
  · intro m hu
    simp [sharedExecute, h1, h2, h3, hdo, hu, decoded, rendered]

theorem not_beginsWith_api_error (cause : GoError) :
    ¬ BeginsWith (Errorf_w "failed to parse response: " cause).Error "API error (status " := by
  rintro ⟨q, hq⟩
  have h := congrArg List.head? hq
  simp [Errorf_w, GoError.Error, String.data_append] at h

/-- C4 (as amended): for both commands, a response with status 200 whose body
is not valid JSON, or is valid JSON that is an array, a string, a number or a
boolean, makes the command fail with a decode error, which is not the API
error of the other statuses, and nothing is rendered. -/
theorem decode_error_on_non_object (c : Collaborators) (f : Bool) (t col : GoString)
    (out : Outcome) (r : Request) (body : String)
    (hrun : tableLineageRunE (goEnv c) f [t] = some out ∨
      columnLineageRunE (goEnv c) [t, col] = some out)
    (hcalls : httpCalls out.trace = [r]) (hdo : c.Do r = .ok ⟨200, .ok body⟩)
    (hobj : isObjectDocument body = false) (hnull : isNullDocument body = false) :
    ∃ cause, json_Unmarshal c.syntaxText body = .error cause ∧
      out.err = some (Errorf_w "failed to parse response: " cause) ∧
      (∀ s b, out.err ≠ some (.formatted ("API error (status " ++ fmt_d s ++ "): " ++ b))) ∧
      BeginsWith (Errorf_w "failed to parse response: " cause).Error
        "failed to parse response: " ∧
      ¬ BeginsWith (Errorf_w "failed to parse response: " cause).Error "API error (status " ∧
      rendered out.trace = [] := by
  obtain ⟨payload, path, rfl⟩ := handler_is_shared (goEnv c) f t col out hrun
  obtain ⟨cause, hu⟩ := json_Unmarshal_error_of_not_object c.syntaxText body hobj hnull
  obtain ⟨h1, -, h3⟩ := (shared_status_ok (goEnv c) payload path body r hcalls hdo).1 cause hu
  refine ⟨cause, hu, h1, ?_, beginsWith_append _ _, not_beginsWith_api_error cause, h3⟩
  intro s b h
  rw [h1] at h
  cases h

/-- Example for C4: the body `not-json` with status 200 gives a decode error and
nothing is rendered. -/
theorem decode_error_on_non_object_witness :
    ∃ out cause, tableLineageRunE (goEnv (sampleCollaborators none (.ok ⟨200, .ok "not-json"⟩) none))
        true [asciiBytes "catalog1.schema1.table1"] = some out ∧
      out.err = some (Errorf_w "failed to parse response: " cause) ∧
      rendered out.trace = [] := by
  obtain ⟨cause, -, h2, -, -, -, h6⟩ := decode_error_on_non_object
    (sampleCollaborators none (.ok ⟨200, .ok "not-json"⟩) none) true
    (asciiBytes "catalog1.schema1.table1") []
    _ _ "not-json" (Or.inl (tableLineageRunE_eq_shared _ _ _)) rfl rfl rfl rfl
  exact ⟨_, cause, tableLineageRunE_eq_shared _ _ _, h2, h6⟩

/-- C4, the claim as stated fails: the body `null` with status 200 is valid
JSON and not an object, yet decoding succeeds (the map stays nil), the nil map
is handed to the render sink, and the command succeeds. -/
theorem null_body_is_rendered :
    ∃ out, tableLineageRunE (goEnv (sampleCollaborators none (.ok ⟨200, .ok "null"⟩) none))
        true [asciiBytes "catalog1.schema1.table1"] = some out ∧
      isObjectDocument "null" = false ∧ isNullDocument "null" = true ∧
      json_Unmarshal (sampleCollaborators none (.ok ⟨200, .ok "null"⟩) none).syntaxText "null"
        = .ok none ∧
      out.err = none ∧ rendered out.trace = [none] :=
  ⟨_, tableLineageRunE_eq_shared _ _ _, rfl, rfl, rfl, rfl, rfl⟩

/-! ## The request bodies -/

theorem char_toNat_ofNat (n : Nat) (h : n < 0xD800 ∨ (0xDFFF < n ∧ n < 0x110000)) :
    (Char.ofNat n).toNat = n := by
  have hv : n.isValidChar := h
  unfold Char.ofNat
  rw [dif_pos hv]
  rfl

theorem leadInfo_spec (b : Byte) (size lo hi : Nat) (h : leadInfo b = some (size, lo, hi)) :
    (size = 2 ∧ 0xC2 ≤ b.val ∧ b.val ≤ 0xDF ∧ lo = 0x80 ∧ hi = 0xBF) ∨
    (size = 3 ∧ b.val = 0xE0 ∧ lo = 0xA0 ∧ hi = 0xBF) ∨
    (size = 3 ∧ 0xE1 ≤ b.val ∧ b.val ≤ 0xEC ∧ lo = 0x80 ∧ hi = 0xBF) ∨
    (size = 3 ∧ b.val = 0xED ∧ lo = 0x80 ∧ hi = 0x9F) ∨
    (size = 3 ∧ 0xEE ≤ b.val ∧ b.val ≤ 0xEF ∧ lo = 0x80 ∧ hi = 0xBF) ∨
    (size = 4 ∧ b.val = 0xF0 ∧ lo = 0x90 ∧ hi = 0xBF) ∨
    (size = 4 ∧ 0xF1 ≤ b.val ∧ b.val ≤ 0xF3 ∧ lo = 0x80 ∧ hi = 0xBF) ∨
    (size = 4 ∧ b.val = 0xF4 ∧ lo = 0x80 ∧ hi = 0x8F) := by
  unfold leadInfo at h
  split_ifs at h <;>
    simp only [Option.some.injEq, Prod.mk.injEq] at h <;>
    obtain ⟨rfl, rfl, rfl⟩ := h <;> simp_all

theorem decodeRune_wide (b : Byte) (rest : GoString) (c : Char) (size : Nat)
    (hb : ¬ b.val < 0x80) (h : decodeRune (b :: rest) = (some c, size)) :
    128 ≤ c.toNat := by
  unfold decodeRune at h
  simp only [hb, if_false] at h
  cases hl : leadInfo b with
  | none => simp [hl] at h
  | some info =>
    obtain ⟨sz, lo, hi⟩ := info
    have hspec := leadInfo_spec b sz lo hi hl
    simp only [hl] at h
    cases rest with
    | nil => simp at h
    | cons b1 rest1 =>
      simp only at h
      split at h
      · simp at h
      · rename_i h1
        split at h
        · rename_i hsz
          simp only [Prod.mk.injEq, Option.some.injEq] at h
          rw [← h.1, char_toNat_ofNat _ (by omega)]
          omega
        · rename_i hsz
          cases rest1 with
          | nil => simp at h
          | cons b2 rest2 =>
            simp only at h
            split at h
            · simp at h
            · rename_i h2
              split at h
              · rename_i hsz3
                simp only [Prod.mk.injEq, Option.some.injEq] at h
                rw [← h.1, char_toNat_ofNat _ (by omega)]
                omega
              · rename_i hsz3
                cases rest2 with
                | nil => simp at h
                | cons b3 rest3 =>
                  simp only at h
                  split at h
                  · simp at h
                  · rename_i h3
                    simp only [Prod.mk.injEq, Option.some.injEq] at h
                    rw [← h.1, char_toNat_ofNat _ (by omega)]
                    omega

theorem hexVal_hexDigit (n : Nat) (h : n < 16) : hexVal (hexDigit n) = some n := by
  interval_cases n <;> rfl

theorem scanString_plain (c : Char) (X : List Char) (h1 : c ≠ '"') (h2 : c ≠ '\\')
    (h3 : ¬ c.toNat < 32) :
    scanString none (c :: X) = consChar c (scanString none X) := by
  rw [scanString.eq_def]
  simp [h1, h2, h3, flushPending]

theorem scanString_simple (e x : Char) (X : List Char) (h : simpleEscape e = some x)
    (hu : e ≠ 'u') :
    scanString none ('\\' :: e :: X) = consChar x (scanString none X) := by
  rw [scanString.eq_def]
  simp [h, hu, flushPending]

theorem scanString_u (a b c d : Char) (n : Nat) (X : List Char)
    (h : getu4 a b c d = some n) (hs : isSurrogate n = false) :
    scanString none ('\\' :: 'u' :: a :: b :: c :: d :: X)
      = consChar (Char.ofNat n) (scanString none X) := by
  rw [scanString.eq_def]
  simp [h, hs]

theorem getu4_low (n : Nat) (h : n < 128) :
    getu4 '0' '0' (hexDigit (n / 16)) (hexDigit (n % 16)) = some n := by
  have h1 : hexVal (hexDigit (n / 16)) = some (n / 16) := hexVal_hexDigit _ (by omega)
  have h2 : hexVal (hexDigit (n % 16)) = some (n % 16) := hexVal_hexDigit _ (by omega)
  have h0 : hexVal '0' = some 0 := rfl
  simp only [getu4, h0, h1, h2]
  congr 1
  omega

/-- The decoder reads back what the encoder writes for an ASCII character. -/
theorem scanString_appendASCII (c : Char) (X : List Char) (h128 : c.toNat < 128) :
    scanString none (appendASCII c ++ X) = consChar c (scanString none X) := by
  unfold appendASCII
  by_cases hs : htmlSafe c = true
  · simp only [hs, if_true, List.singleton_append]
    simp only [htmlSafe, Bool.and_eq_true, decide_eq_true_eq, Bool.not_eq_true',
      Bool.or_eq_false_iff, beq_eq_false_iff_ne, ne_eq] at hs
    exact scanString_plain c X hs.2.1.1.1.1 hs.2.2 (by omega)
  · simp only [hs, if_false]
    by_cases h1 : c = '\\' ∨ c = '"'
    · simp only [h1, if_true, List.cons_append, List.nil_append]
      rcases h1 with rfl | rfl
      · exact scanString_simple _ _ X rfl (by decide)
      · exact scanString_simple _ _ X rfl (by decide)
    · simp only [h1, if_false]
      by_cases h2 : c = Char.ofNat 8
      · subst h2
        exact scanString_simple _ _ X rfl (by decide)
      · simp only [h2, if_false]
        by_cases h3 : c = Char.ofNat 12
        · subst h3
          exact scanString_simple _ _ X rfl (by decide)
        · simp only [h3, if_false]
          by_cases h4 : c = '\n'
          · subst h4
            exact scanString_simple _ _ X rfl (by decide)
          · simp only [h4, if_false]
            by_cases h5 : c = '\r'
            · subst h5
              exact scanString_simple _ _ X rfl (by decide)
            · simp only [h5, if_false]
              by_cases h6 : c = '\t'
              · subst h6
                exact scanString_simple _ _ X rfl (by decide)
              · simp only [h6, if_false, Bool.false_eq_true, List.cons_append,
                  List.nil_append]
                rw [scanString_u _ _ _ _ c.toNat X (getu4_low _ h128)
                  (by simp [isSurrogate]; omega), Char.ofNat_toNat]

/-- The decoder reads back what the encoder writes for a rune of two bytes or more. -/
theorem scanString_appendWide (c : Char) (X : List Char) (h128 : 128 ≤ c.toNat) :
    scanString none (appendWide c ++ X) = consChar c (scanString none X) := by
  unfold appendWide
  by_cases h1 : c = Char.ofNat 0x2028 ∨ c = Char.ofNat 0x2029
  · simp only [h1, if_true, List.cons_append, List.nil_append]
    rcases h1 with rfl | rfl
    · exact scanString_u _ _ _ _ 0x2028 X rfl rfl
    · exact scanString_u _ _ _ _ 0x2029 X rfl rfl
  · simp only [h1, if_false, List.singleton_append]
    refine scanString_plain c X ?_ ?_ (by omega)
    · rintro rfl
      exact absurd h128 (by decide)
    · rintro rfl
      exact absurd h128 (by decide)

/-- The decoder reads the escape written for an invalid byte as `U+FFFD`. -/
theorem scanString_replacement (X : List Char) :
    scanString none ('\\' :: 'u' :: 'f' :: 'f' :: 'f' :: 'd' :: X)
      = consChar replacementChar (scanString none X) :=
  scanString_u _ _ _ _ 0xFFFD X rfl rfl

/-- Decoding what `appendString` writes between the quotes gives the runes of
the Go string, with `U+FFFD` for every byte outside a well-formed sequence. -/
theorem scanString_appendStringLoop : ∀ (fuel : Nat) (s : GoString) (rest : List Char),
    scanString none (appendStringLoop fuel s ++ '"' :: rest) =
      some ((decodeRunesLoop fuel s).map (fun r => r.getD replacementChar), rest) := by
  intro fuel
  induction fuel with
  | zero =>
    intro s rest
    rw [appendStringLoop, decodeRunesLoop, List.nil_append, scanString.eq_def]
    simp [flushPending]
  | succ n ih =>
    intro s rest
    cases s with
    | nil =>
      rw [appendStringLoop, decodeRunesLoop, List.nil_append, scanString.eq_def]
      simp [flushPending]
    | cons b bs =>
      rw [appendStringLoop, decodeRunesLoop]
      by_cases hb : b.val < 0x80
      · simp only [hb, if_true]
        have hc : (Char.ofNat b.val).toNat < 128 := by
          rw [char_toNat_ofNat _ (by omega)]; exact hb
        rw [List.append_assoc, scanString_appendASCII _ _ hc, ih]
        rfl
      · simp only [hb, if_false]
        cases hd : decodeRune (b :: bs) with
        | mk r size =>
          cases r with
          | none =>
            simp only []
            rw [List.append_assoc]
            simp only [List.cons_append, List.nil_append]
            rw [scanString_replacement, ih]
            rfl
          | some c =>
            simp only []
            rw [List.append_assoc, scanString_appendWide _ _ (decodeRune_wide b bs c size hb hd),
              ih]
            rfl

theorem skipSpace_cons_of_not_space (c : Char) (cs : List Char) (h : isSpace c = false) :
    skipSpace (c :: cs) = c :: cs := by
  simp [skipSpace, h]

theorem appendString_append (s : GoString) (rest : List Char) :
    appendString s ++ rest = '"' :: (appendStringLoop s.length s ++ '"' :: rest) := by
  simp [appendString]

theorem skipSpace_appendString (s : GoString) (rest : List Char) :
    skipSpace (appendString s ++ rest) = appendString s ++ rest := by
  rw [appendString_append]
  exact skipSpace_cons_of_not_space _ _ rfl

theorem parseValue_string (d : Nat) (s : GoString) (rest : List Char) :
    parseValue d (appendString s ++ rest) = some ⟨.string s.toValid, none, rest⟩ := by
  rw [appendString_append, parseValue.eq_def]
  simp [scanString_appendStringLoop, GoString.toValid, GoString.runes]

theorem parseValue_true (d : Nat) (rest : List Char) :
    parseValue d ('t' :: 'r' :: 'u' :: 'e' :: rest) = some ⟨.bool true, none, rest⟩ := by
  rw [parseValue.eq_def]
  simp [expect]

theorem parseMembers_comma (pv : List Char → Option Parsed) (fuel : Nat) (acc : GoMap)
    (err : Option GoError) (k : GoString) (V r3 : List Char) (p : Parsed)
    (hV : skipSpace V = V) (hp : pv V = some p) (hr : skipSpace p.rest = ',' :: r3) :
    parseMembers pv (fuel + 1) acc err (appendString k ++ ':' :: V) =
      parseMembers pv fuel (mapSet acc k.toValid p.val) (saveError err p.err) (skipSpace r3) := by
  rw [appendString_append, parseMembers]
  simp [scanString_appendStringLoop, skipSpace_cons_of_not_space, isSpace, hV, hp, hr,
    GoString.toValid, GoString.runes]

theorem parseMembers_close (pv : List Char → Option Parsed) (fuel : Nat) (acc : GoMap)
    (err : Option GoError) (k : GoString) (V r3 : List Char) (p : Parsed)
    (hV : skipSpace V = V) (hp : pv V = some p) (hr : skipSpace p.rest = '}' :: r3) :
    parseMembers pv (fuel + 1) acc err (appendString k ++ ':' :: V) =
      some ⟨.map (mapSet acc k.toValid p.val), saveError err p.err, r3⟩ := by
  rw [appendString_append, parseMembers]
  simp [scanString_appendStringLoop, skipSpace_cons_of_not_space, isSpace, hV, hp, hr,
    GoString.toValid, GoString.runes]

theorem parseValue_open (d : Nat) (k : GoString) (R : List Char) :
    parseValue (d + 1) ('{' :: (appendString k ++ R)) =
      parseMembers (parseValue d) (appendString k ++ R).length [] none (appendString k ++ R) := by
  rw [parseValue.eq_def]
  simp only [if_true]
  rw [skipSpace_appendString, appendString_append]
  simp

theorem length_member (k : GoString) (V : List Char) :
    ∃ n, (appendString k ++ ':' :: V).length = n + 1 + V.length := by
  refine ⟨(appendStringLoop k.length k).length + 2, ?_⟩
  simp [appendString]
  omega

theorem decode_one_string (d : Nat) (k v : GoString) :
    parseValue (d + 1) ('{' :: (appendString k ++ ':' :: (appendString v ++ ['}']))) =
      some ⟨.map [(k.toValid, .string v.toValid)], none, []⟩ := by
  rw [parseValue_open]
  obtain ⟨n, hn⟩ := length_member k (appendString v ++ ['}'])
  rw [hn, show n + 1 + (appendString v ++ ['}']).length
      = (n + (appendString v ++ ['}']).length) + 1 by omega]
  rw [parseMembers_close (parseValue d) _ [] none k _ [] _ (skipSpace_appendString _ _)
    (parseValue_string d v _) (skipSpace_cons_of_not_space _ _ rfl)]
  rfl

theorem decode_two_strings (d : Nat) (k1 v1 k2 v2 : GoString) :
    parseValue (d + 1) ('{' :: (appendString k1 ++ ':' :: (appendString v1 ++
        ',' :: (appendString k2 ++ ':' :: (appendString v2 ++ ['}']))))) =
      some ⟨.map (mapSet [(k1.toValid, .string v1.toValid)] k2.toValid (.string v2.toValid)),
        none, []⟩ := by
  rw [parseValue_open]
  obtain ⟨n, hn⟩ := length_member k1
    (appendString v1 ++ ',' :: (appendString k2 ++ ':' :: (appendString v2 ++ ['}'])))
  obtain ⟨m, hm⟩ : ∃ m, (appendString v1 ++
      ',' :: (appendString k2 ++ ':' :: (appendString v2 ++ ['}']))).length = m + 1 :=
    ⟨_, by simp [appendString]; rfl⟩
  rw [hn, hm, show n + 1 + (m + 1) = (n + m + 1) + 1 by omega]
  rw [parseMembers_comma (parseValue d) _ [] none k1 _ _ _ (skipSpace_appendString _ _)
    (parseValue_string d v1 _) (skipSpace_cons_of_not_space _ _ rfl)]
  rw [skipSpace_appendString]
  rw [parseMembers_close (parseValue d) _ _ _ k2 _ [] _ (skipSpace_appendString _ _)
    (parseValue_string d v2 _) (skipSpace_cons_of_not_space _ _ rfl)]
  rfl

theorem decode_string_true (d : Nat) (k1 v1 k2 : GoString) :
    parseValue (d + 1) ('{' :: (appendString k1 ++ ':' :: (appendString v1 ++
        ',' :: (appendString k2 ++ ':' :: ('t' :: 'r' :: 'u' :: 'e' :: ['}']))))) =
      some ⟨.map (mapSet [(k1.toValid, .string v1.toValid)] k2.toValid (.bool true)),
        none, []⟩ := by
  rw [parseValue_open]
  obtain ⟨n, hn⟩ := length_member k1
    (appendString v1 ++ ',' :: (appendString k2 ++ ':' :: ('t' :: 'r' :: 'u' :: 'e' :: ['}'])))
  obtain ⟨m, hm⟩ : ∃ m, (appendString v1 ++
      ',' :: (appendString k2 ++ ':' :: ('t' :: 'r' :: 'u' :: 'e' :: ['}']))).length = m + 1 :=
    ⟨_, by simp [appendString]; rfl⟩
  rw [hn, hm, show n + 1 + (m + 1) = (n + m + 1) + 1 by omega]
  rw [parseMembers_comma (parseValue d) _ [] none k1 _ _ _ (skipSpace_appendString _ _)
    (parseValue_string d v1 _) (skipSpace_cons_of_not_space _ _ rfl)]
  rw [skipSpace_appendString]
  rw [parseMembers_close (parseValue d) _ _ _ k2 ('t' :: 'r' :: 'u' :: 'e' :: ['}']) [] _
    (skipSpace_cons_of_not_space 't' _ rfl) (parseValue_true d _)
    (skipSpace_cons_of_not_space (Char.ofNat 125) _ rfl)]
  rfl

/-- What `json.Unmarshal` makes of a document that is one object. -/
theorem json_Unmarshal_of_parseValue (syn : String → String) (cs : List Char) (kvs : GoMap)
    (h : parseValue maxNestingDepth (Char.ofNat 123 :: cs) = some ⟨.map kvs, none, []⟩) :
    json_Unmarshal syn (String.mk (Char.ofNat 123 :: cs)) = .ok (some kvs) := by
  have hs : skipSpace (Char.ofNat 123 :: cs) = Char.ofNat 123 :: cs :=
    skipSpace_cons_of_not_space _ _ rfl
  simp only [json_Unmarshal, parseDocument, hs, h]
  rfl

/-- A well-formed Go string is spelled by the text it is coerced to. -/
theorem runes_of_wellFormed (s : GoString) (h : s.wellFormed = true) :
    s.runes = s.toValid.data.map some := by
  unfold GoString.wellFormed at h
  unfold GoString.toValid
  simp only [List.map_map]
  have : ∀ l : List (Option Char), l.all Option.isSome = true →
      l = l.map (some ∘ fun r => r.getD replacementChar) := by
    intro l
    induction l with
    | nil => intro _; rfl
    | cons x xs ih =>
      intro hx
      simp only [List.all_cons, Bool.and_eq_true] at hx
      cases x with
      | none => simp at hx
      | some c =>
        simp only [List.map_cons, Function.comp, Option.getD_some]
        rw [← ih hx.2]
  exact this _ h

/-- Once the request is serialized and its URL parsed, the authenticator is
called exactly once, on the request built from the two. -/
theorem shared_authCalls_of (env : Env) (payload : List StructField) (path json url : String)
    (h1 : env.Marshal payload = .ok json) (h2 : env.urlParse (env.Host ++ path) = .ok url) :
    authCalls (sharedExecute env payload path).trace =
      [⟨"GET", url, [("Content-Type", "application/json")], json⟩] := by
  unfold sharedExecute
  simp only [h1, h2]
  cases h3 : env.Authenticate ⟨"GET", url, [("Content-Type", "application/json")], json⟩ with
  | error e => simp [authCalls]
  | ok authed =>
    simp only []
    cases h4 : env.Do authed with
    | error e => simp [authCalls]
    | ok resp =>
      simp only []
      cases h5 : resp.Body with
      | error e => simp [authCalls]
      | ok body =>
        simp only []
        split
        · cases h6 : env.Unmarshal body <;> simp [authCalls]
        · simp [authCalls]

theorem execute_table (env : Env) (given : Option Bool) (t : GoString) (cmd : Command)
    (hcmd : newTableLineageCommand = some cmd) (hpre : env.MustWorkspaceClient = none) :
    execute env cmd given [t] = some (sharedExecute env
      (TableLineageRequest.fields ⟨t, given.getD true⟩)
      "/api/2.0/lineage-tracking/table-lineage") := by
  simp only [newTableLineageCommand, Option.some.injEq] at hcmd
  subst hcmd
  have hf : flagValue (.mk "table-lineage TABLE_NAME" "Get table lineage"
      "Get table lineage for a Unity Catalog table.\n\nProvide a fully qualified table name like catalog.schema.table."
      "" (some 1) true (some .tableLineage)
      [⟨"include-entity-lineage", true,
        "Include notebook, job, or dashboard lineage when available"⟩] [])
      "include-entity-lineage" given = given.getD true := by
    cases given <;> rfl
  simp only [execute, Command.Args, Command.PreRunE, Command.RunE, root_ExactArgs,
    List.length_singleton, if_true, hf, hpre, tableLineageRunE_eq_shared]

theorem execute_column (env : Env) (given : Option Bool) (t col : GoString) (cmd : Command)
    (hcmd : newColumnLineageCommand = some cmd) (hpre : env.MustWorkspaceClient = none) :
    execute env cmd given [t, col] = some (sharedExecute env
      (ColumnLineageRequest.fields ⟨t, col⟩)
      "/api/2.0/lineage-tracking/column-lineage") := by
  simp only [newColumnLineageCommand, Option.some.injEq] at hcmd
  subst hcmd
  simp only [execute, Command.Args, Command.PreRunE, Command.RunE, root_ExactArgs,
    List.length_cons, List.length_nil, if_true, hpre, columnLineageRunE_eq_shared]

/-- C1 (as amended): for every table name `t` and every setting of the flag
include-entity-lineage (true when unset), the table-lineage command run on
`[t]` serializes without error and, once the pre-run hook and the parsing of
the URL succeed, hands the authenticator exactly one request, whose body is
that text.  The text decodes to the object whose `table_name` is `t` coerced
to valid UTF-8 (every byte outside a well-formed sequence replaced by
`U+FFFD`), which spells `t` itself when `t` is well-formed, with
`include_entity_lineage` equal to true when the flag is true and no other key
when it is false.  For `catalog1.schema1.table1` and the flag unset the body
is the text of the example. -/
theorem table_request_body (c : Collaborators) (given : Option Bool) (t : GoString) :
    ∃ body,
      json_Marshal (TableLineageRequest.fields ⟨t, given.getD true⟩) = .ok body ∧
      (∀ cmd url, newTableLineageCommand = some cmd → c.MustWorkspaceClient = none →
        c.urlParse (c.Host ++ "/api/2.0/lineage-tracking/table-lineage") = .ok url →
        ∃ out, execute (goEnv c) cmd given [t] = some out ∧
          authCalls out.trace =
            [⟨"GET", url, [("Content-Type", "application/json")], body⟩]) ∧
      json_Unmarshal c.syntaxText body = .ok (some (("table_name", GoAny.string t.toValid) ::
        (if given.getD true then [("include_entity_lineage", GoAny.bool true)] else []))) ∧
      (t.wellFormed = true → t.runes = t.toValid.data.map some) ∧
      (given = none → t = asciiBytes "catalog1.schema1.table1" → body =
        "\x7b\"table_name\":\"catalog1.schema1.table1\",\"include_entity_lineage\":true\x7d") := by
  refine ⟨_, rfl, ?_, ?_, runes_of_wellFormed t, ?_⟩
  · intro cmd url hcmd hpre hurl
    exact ⟨_, execute_table (goEnv c) given t cmd hcmd hpre,
      shared_authCalls_of (goEnv c) _ _ _ url rfl hurl⟩
  · cases given.getD true with
    | true =>
      apply json_Unmarshal_of_parseValue
      exact decode_string_true 9999 (asciiBytes "table_name") t
        (asciiBytes "include_entity_lineage")
    | false =>
      apply json_Unmarshal_of_parseValue
      exact decode_one_string 9999 (asciiBytes "table_name") t
  · rintro rfl rfl
    rfl

/-- Example for C1: the body for `catalog1.schema1.table1` with the flag unset,
and the request the command hands on. -/
theorem table_request_body_witness :
    json_Marshal (TableLineageRequest.fields ⟨asciiBytes "catalog1.schema1.table1", true⟩) = .ok
      "\x7b\"table_name\":\"catalog1.schema1.table1\",\"include_entity_lineage\":true\x7d" ∧
    (asciiBytes "catalog1.schema1.table1").toValid = "catalog1.schema1.table1" ∧
    (∃ cmd out, newTableLineageCommand = some cmd ∧
      execute (goEnv (sampleCollaborators none (.ok deniedResponse) none)) cmd none
        [asciiBytes "catalog1.schema1.table1"] = some out ∧
      authCalls out.trace = [⟨"GET",
        "https://adb-1.azuredatabricks.net/api/2.0/lineage-tracking/table-lineage",
        [("Content-Type", "application/json")],
        "\x7b\"table_name\":\"catalog1.schema1.table1\",\"include_entity_lineage\":true\x7d"⟩]) := by
  obtain ⟨body, h1, h2, -, -, h5⟩ := table_request_body
    (sampleCollaborators none (.ok deniedResponse) none) none
    (asciiBytes "catalog1.schema1.table1")
  have hb := h5 rfl rfl
  subst hb
  obtain ⟨out, h3, h4⟩ := h2 _ _ rfl rfl rfl
  exact ⟨h1, rfl, _, out, rfl, h3, h4⟩

/-- C1, the claim as stated fails: for the table name of the three bytes
`a`, `0xff`, `b`, which is not well-formed UTF-8, the body carries the escape
for `U+FFFD` in place of the byte `0xff`, so its `table_name` is a text of
three characters that does not spell the argument. -/
theorem invalid_utf8_table_name_is_coerced :
    json_Marshal (TableLineageRequest.fields ⟨[0x61, 0xff, 0x62], true⟩) = .ok
      "\x7b\"table_name\":\"a\\ufffdb\",\"include_entity_lineage\":true\x7d" ∧
    json_Unmarshal (sampleCollaborators none (.ok deniedResponse) none).syntaxText
      "\x7b\"table_name\":\"a\\ufffdb\",\"include_entity_lineage\":true\x7d" = .ok (some
        [("table_name", GoAny.string "a\uFFFDb"), ("include_entity_lineage", GoAny.bool true)]) ∧
    GoString.wellFormed [0x61, 0xff, 0x62] = false ∧
    GoString.runes [0x61, 0xff, 0x62] = [some 'a', none, some 'b'] ∧
    GoString.runes [0x61, 0xff, 0x62] ≠ ("a\uFFFDb" : String).data.map some ∧
    (∃ out, tableLineageRunE (goEnv (sampleCollaborators none (.ok deniedResponse) none)) true
        [[0x61, 0xff, 0x62]] = some out ∧
      (authCalls out.trace).map Request.Body =
        ["\x7b\"table_name\":\"a\\ufffdb\",\"include_entity_lineage\":true\x7d"]) :=
  ⟨rfl, rfl, rfl, rfl, by decide, _, tableLineageRunE_eq_shared _ _ _, rfl⟩

/-- C2 (as amended): for every pair of arguments `(t, col)`, the column-lineage
command run on `[t, col]` serializes without error and, once the pre-run hook
and the parsing of the URL succeed, hands the authenticator exactly one
request, whose body is that text.  The text decodes to the object with exactly
the two keys `table_name` and `column_name`, present also for empty
arguments, whose values are `t` and `col` coerced to valid UTF-8 (every byte
outside a well-formed sequence replaced by `U+FFFD`), which spell `t` and
`col` themselves when these are well-formed. -/
theorem column_request_body (c : Collaborators) (given : Option Bool) (t col : GoString) :
    ∃ body,
      json_Marshal (ColumnLineageRequest.fields ⟨t, col⟩) = .ok body ∧
      (∀ cmd url, newColumnLineageCommand = some cmd → c.MustWorkspaceClient = none →
        c.urlParse (c.Host ++ "/api/2.0/lineage-tracking/column-lineage") = .ok url →
        ∃ out, execute (goEnv c) cmd given [t, col] = some out ∧
          authCalls out.trace =
            [⟨"GET", url, [("Content-Type", "application/json")], body⟩]) ∧
      json_Unmarshal c.syntaxText body = .ok (some
        [("table_name", GoAny.string t.toValid), ("column_name", GoAny.string col.toValid)]) ∧
      (t.wellFormed = true → t.runes = t.toValid.data.map some) ∧
      (col.wellFormed = true → col.runes = col.toValid.data.map some) ∧
      (t = [] → col = [] → body = "\x7b\"table_name\":\"\",\"column_name\":\"\"\x7d") := by
  refine ⟨_, rfl, ?_, ?_, runes_of_wellFormed t, runes_of_wellFormed col, ?_⟩
  · intro cmd url hcmd hpre hurl
    exact ⟨_, execute_column (goEnv c) given t col cmd hcmd hpre,
      shared_authCalls_of (goEnv c) _ _ _ url rfl hurl⟩
  · apply json_Unmarshal_of_parseValue
    exact decode_two_strings 9999 (asciiBytes "table_name") t (asciiBytes "column_name") col
  · rintro rfl rfl
    rfl

/-- Example for C2: both keys are written for two empty arguments, and the
request the command hands on carries them. -/
theorem column_request_body_witness :
    json_Marshal (ColumnLineageRequest.fields ⟨[], []⟩) = .ok
      "\x7b\"table_name\":\"\",\"column_name\":\"\"\x7d" ∧
    (∃ cmd out, newColumnLineageCommand = some cmd ∧
      execute (goEnv (sampleCollaborators none (.ok deniedResponse) none)) cmd none
        [[], []] = some out ∧
      authCalls out.trace = [⟨"GET",
        "https://adb-1.azuredatabricks.net/api/2.0/lineage-tracking/column-lineage",
        [("Content-Type", "application/json")],
        "\x7b\"table_name\":\"\",\"column_name\":\"\"\x7d"⟩]) := by
  obtain ⟨body, h1, h2, -, -, -, h6⟩ := column_request_body
    (sampleCollaborators none (.ok deniedResponse) none) none [] []
  have hb := h6 rfl rfl
  subst hb
  obtain ⟨out, h3, h4⟩ := h2 _ _ rfl rfl rfl
  exact ⟨h1, _, out, rfl, h3, h4⟩

/-- C2, the claim as stated fails: for the column name of the single byte
`0xff`, which is not well-formed UTF-8, the body carries the escape for
`U+FFFD`, so its `column_name` is a text of one character that does not spell
the argument. -/
theorem invalid_utf8_column_name_is_coerced :
    json_Marshal (ColumnLineageRequest.fields ⟨asciiBytes "t", [0xff]⟩) = .ok
      "\x7b\"table_name\":\"t\",\"column_name\":\"\\ufffd\"\x7d" ∧
    json_Unmarshal (sampleCollaborators none (.ok deniedResponse) none).syntaxText
      "\x7b\"table_name\":\"t\",\"column_name\":\"\\ufffd\"\x7d" = .ok (some
        [("table_name", GoAny.string "t"), ("column_name", GoAny.string "\uFFFD")]) ∧
    GoString.wellFormed [0xff] = false ∧
    GoString.runes [0xff] = [none] ∧
    GoString.runes [0xff] ≠ ("\uFFFD" : String).data.map some ∧
    (∃ out, columnLineageRunE (goEnv (sampleCollaborators none (.ok deniedResponse) none))
        [asciiBytes "t", [0xff]] = some out ∧
      (authCalls out.trace).map Request.Body =
        ["\x7b\"table_name\":\"t\",\"column_name\":\"\\ufffd\"\x7d"]) :=
  ⟨rfl, rfl, rfl, rfl, by decide, _, columnLineageRunE_eq_shared _ _ _, rfl⟩

/-! ## The loops of the decoder have enough fuel -/


theorem skipSpace_length_le (cs : List Char) : (skipSpace cs).length ≤ cs.length := by
  induction cs with
  | nil => simp [skipSpace]
  | cons c cs ih =>
    simp only [skipSpace]
    split
    · simp only [List.length_cons]; omega
    · exact le_refl _

theorem consChar_rest {c : Char} {r : Option (List Char × List Char)} {s rest : List Char}
    (h : consChar c r = some (s, rest)) : ∃ s0, r = some (s0, rest) := by
  unfold consChar at h
  split at h
  · cases h
  · simp only [Option.some.injEq, Prod.mk.injEq] at h
    exact ⟨_, by rw [h.2]⟩

theorem flushPending_rest {pd : Option Nat} {r : Option (List Char × List Char)}
    {s rest : List Char} (h : flushPending pd r = some (s, rest)) :
    ∃ s0, r = some (s0, rest) := by
  unfold flushPending at h
  split at h
  · exact consChar_rest h
  · exact ⟨_, h⟩

theorem scanString_rest_lt (n : Nat) : ∀ (pd : Option Nat) (cs s rest : List Char),
    cs.length ≤ n → scanString pd cs = some (s, rest) → rest.length < cs.length := by
  induction n with
  | zero =>
    intro pd cs s rest hn h
    have : cs = [] := List.length_eq_zero.mp (Nat.le_zero.mp hn)
    subst this
    simp [scanString] at h
  | succ n ih =>
    intro pd cs s rest hn h
    rw [scanString.eq_def] at h
    split at h
    · cases h
    · rename_i pending c cs0
      simp only [List.length_cons] at hn ⊢
      split at h
      · obtain ⟨s0, h0⟩ := flushPending_rest h
        simp only [Option.some.injEq, Prod.mk.injEq] at h0
        rw [← h0.2]; omega
      · split at h
        · split at h
          · cases h
          · rename_i e es
            simp only [List.length_cons] at hn ⊢
            split at h
            · split at h
              · rename_i a b c2 d r0
                simp only [List.length_cons] at hn ⊢
                have key : ∀ pd2 s2, scanString pd2 r0 = some (s2, rest) →
                    rest.length < r0.length + 1 + 1 + 1 + 1 + 1 + 1 := by
                  intro pd2 s2 h2
                  have := ih pd2 r0 s2 rest (by omega) h2
                  omega
                split at h
                · cases h
                · split at h
                  · split at h
                    · obtain ⟨s0, h0⟩ := consChar_rest h
                      exact key _ _ h0
                    · obtain ⟨s0, h0⟩ := consChar_rest h
                      split at h0
                      · exact key _ _ h0
                      · obtain ⟨s1, h1⟩ := consChar_rest h0
                        exact key _ _ h1
                  · split at h
                    · exact key _ _ h
                    · obtain ⟨s0, h0⟩ := consChar_rest h
                      exact key _ _ h0
              · cases h
            · split at h
              · cases h
              · obtain ⟨s0, h0⟩ := flushPending_rest h
                obtain ⟨s1, h1⟩ := consChar_rest h0
                have := ih none es s1 rest (by omega) h1
                omega
        · split at h
          · cases h
          · obtain ⟨s0, h0⟩ := flushPending_rest h
            obtain ⟨s1, h1⟩ := consChar_rest h0
            have := ih none cs0 s1 rest (by omega) h1
            omega

theorem takeDigits_length_le (cs : List Char) : (takeDigits cs).2.length ≤ cs.length := by
  induction cs with
  | nil => simp [takeDigits]
  | cons c cs ih =>
    simp only [takeDigits]
    split
    · simp only [List.length_cons]; omega
    · exact le_refl _

theorem scanInt_rest_lt {cs ds rest : List Char} (h : scanInt cs = some (ds, rest)) :
    rest.length < cs.length := by
  unfold scanInt at h
  split at h
  · cases h
  · rename_i c cs0
    simp only [List.length_cons]
    split at h
    · simp only [Option.some.injEq, Prod.mk.injEq] at h
      rw [← h.2]; omega
    · split at h
      · simp only [Option.some.injEq, Prod.mk.injEq] at h
        have := takeDigits_length_le cs0
        rw [← h.2]; omega
      · cases h

theorem scanFrac_rest_le {cs ds rest : List Char} (h : scanFrac cs = some (ds, rest)) :
    rest.length ≤ cs.length := by
  unfold scanFrac at h
  split at h
  · simp only [Option.some.injEq, Prod.mk.injEq] at h
    rw [← h.2]
  · rename_i c cs0
    simp only [List.length_cons]
    split at h
    · split at h
      · cases h
      · simp only [Option.some.injEq] at h
        have := takeDigits_length_le cs0
        rw [h] at this
        simp only at this
        omega
    · simp only [Option.some.injEq, Prod.mk.injEq] at h
      rw [← h.2]; simp

theorem scanExp_rest_le {cs mark ds rest : List Char}
    (h : scanExp cs = some (mark, ds, rest)) : rest.length ≤ cs.length := by
  unfold scanExp at h
  split at h
  · simp only [Option.some.injEq, Prod.mk.injEq] at h
    rw [← h.2.2]
  · rename_i c cs0
    simp only [List.length_cons]
    split at h
    · split at h
      · cases h
      · rename_i s r
        simp only [List.length_cons]
        split at h
        · split at h
          · cases h
          · simp only [Option.some.injEq, Prod.mk.injEq] at h
            have := takeDigits_length_le r
            rw [← h.2.2]; omega
        · split at h
          · cases h
          · simp only [Option.some.injEq, Prod.mk.injEq] at h
            have := takeDigits_length_le (s :: r)
            simp only [List.length_cons] at this
            rw [← h.2.2]; omega
    · simp only [Option.some.injEq, Prod.mk.injEq] at h
      rw [← h.2.2]; simp

theorem scanNumber_rest_lt {cs rest : List Char} {n : NumLit}
    (h : scanNumber cs = some (n, rest)) : rest.length < cs.length := by
  unfold scanNumber at h
  simp only at h
  split at h
  · cases h
  · rename_i ints r1 h1
    split at h
    · cases h
    · rename_i fracs r2 h2
      split at h
      · cases h
      · rename_i mark exps r3 h3
        simp only [Option.some.injEq, Prod.mk.injEq] at h
        have a1 := scanInt_rest_lt h1
        have a2 := scanFrac_rest_le h2
        have a3 := scanExp_rest_le h3
        have a4 : ∀ b : Bool, (if b = true then cs.tail else cs).length ≤ cs.length := by
          intro b
          cases b <;> simp
        rw [← h.2]
        exact lt_of_lt_of_le (lt_of_le_of_lt (a3.trans a2) a1) (a4 _)

theorem expect_rest_le : ∀ (ls cs rest : List Char), expect ls cs = some rest →
    rest.length ≤ cs.length := by
  intro ls
  induction ls with
  | nil =>
    intro cs rest h
    simp only [expect, Option.some.injEq] at h
    rw [h]
  | cons l ls ih =>
    intro cs rest h
    cases cs with
    | nil => simp [expect] at h
    | cons c cs =>
      simp only [expect] at h
      split at h
      · have := ih cs rest h
        simp only [List.length_cons]; omega
      · cases h

theorem parseElems_rest_lt (pv : List Char → Option Parsed) (hpv : Progress pv) :
    ∀ (fuel : Nat) (acc : List GoAny) (err : Option GoError) (cs : List Char) (p : Parsed),
      parseElems pv fuel acc err cs = some p → p.rest.length < cs.length := by
  intro fuel
  induction fuel with
  | zero => intro acc err cs p h; simp [parseElems] at h
  | succ n ih =>
    intro acc err cs p h
    rw [parseElems] at h
    split at h
    · cases h
    · rename_i q hq
      have h1 := hpv cs q hq
      have h2 := skipSpace_length_le q.rest
      split at h
      · cases h
      · rename_i x r hx
        rw [hx] at h2
        simp only [List.length_cons] at h2
        split at h
        · have := ih _ _ _ _ h
          have := skipSpace_length_le r
          omega
        · split at h
          · simp only [Option.some.injEq] at h
            rw [← h]; simp only; omega
          · cases h

theorem parseElems_fuel (pv : List Char → Option Parsed) (hpv : Progress pv) :
    ∀ (f1 f2 : Nat) (acc : List GoAny) (err : Option GoError) (cs : List Char),
      cs.length ≤ f1 → cs.length ≤ f2 →
      parseElems pv f1 acc err cs = parseElems pv f2 acc err cs := by
  intro f1
  induction f1 with
  | zero =>
    intro f2 acc err cs h1 _
    have hcs : cs = [] := List.length_eq_zero.mp (Nat.le_zero.mp h1)
    subst hcs
    have hnone : pv [] = none := by
      cases hq : pv [] with
      | none => rfl
      | some q => exact absurd (hpv [] q hq) (by simp)
    cases f2 with
    | zero => rfl
    | succ m => simp [parseElems, hnone]
  | succ n ih =>
    intro f2 acc err cs h1 h2
    cases f2 with
    | zero =>
      have hcs : cs = [] := List.length_eq_zero.mp (Nat.le_zero.mp h2)
      subst hcs
      have hnone : pv [] = none := by
        cases hq : pv [] with
        | none => rfl
        | some q => exact absurd (hpv [] q hq) (by simp)
      simp [parseElems, hnone]
    | succ m =>
      rw [parseElems, parseElems]
      cases hq : pv cs with
      | none => rfl
      | some q =>
        simp only []
        have a1 := hpv cs q hq
        have a2 := skipSpace_length_le q.rest
        cases hx : skipSpace q.rest with
        | nil => rfl
        | cons x r =>
          simp only []
          rw [hx] at a2
          simp only [List.length_cons] at a2
          have a3 := skipSpace_length_le r
          split
          · exact ih m _ _ _ (by omega) (by omega)
          · rfl

theorem parseMembers_rest_lt (pv : List Char → Option Parsed) (hpv : Progress pv) :
    ∀ (fuel : Nat) (acc : GoMap) (err : Option GoError) (cs : List Char) (p : Parsed),
      parseMembers pv fuel acc err cs = some p → p.rest.length < cs.length := by
  intro fuel
  induction fuel with
  | zero => intro acc err cs p h; simp [parseMembers] at h
  | succ n ih =>
    intro acc err cs p h
    rw [parseMembers.eq_def] at h
    simp only at h
    split at h
    · cases h
    · rename_i q r0
      simp only [List.length_cons]
      split at h
      · split at h
        · cases h
        · rename_i k r1 hk
          have b1 := scanString_rest_lt r0.length none r0 k r1 (le_refl _) hk
          have b2 := skipSpace_length_le r1
          split at h
          · cases h
          · rename_i x r2 hx
            rw [hx] at b2
            simp only [List.length_cons] at b2
            split at h
            · split at h
              · cases h
              · rename_i v hv
                have b3 := hpv _ v hv
                have b4 := skipSpace_length_le r2
                have b5 := skipSpace_length_le v.rest
                split at h
                · cases h
                · rename_i y r3 hy
                  rw [hy] at b5
                  simp only [List.length_cons] at b5
                  split at h
                  · have := ih _ _ _ _ h
                    have := skipSpace_length_le r3
                    omega
                  · split at h
                    · simp only [Option.some.injEq] at h
                      rw [← h]; simp only; omega
                    · cases h
            · cases h
      · cases h

theorem parseMembers_nil (pv : List Char → Option Parsed) (fuel : Nat) (acc : GoMap)
    (err : Option GoError) : parseMembers pv fuel acc err [] = none := by
  cases fuel <;> simp [parseMembers]

theorem parseMembers_fuel (pv : List Char → Option Parsed) (hpv : Progress pv) :
    ∀ (f1 f2 : Nat) (acc : GoMap) (err : Option GoError) (cs : List Char),
      cs.length ≤ f1 → cs.length ≤ f2 →
      parseMembers pv f1 acc err cs = parseMembers pv f2 acc err cs := by
  intro f1
  induction f1 with
  | zero =>
    intro f2 acc err cs h1 _
    have hcs : cs = [] := List.length_eq_zero.mp (Nat.le_zero.mp h1)
    subst hcs
    rw [parseMembers_nil, parseMembers_nil]
  | succ n ih =>
    intro f2 acc err cs h1 h2
    cases f2 with
    | zero =>
      have hcs : cs = [] := List.length_eq_zero.mp (Nat.le_zero.mp h2)
      subst hcs
      rw [parseMembers_nil, parseMembers_nil]
    | succ m =>
      cases cs with
      | nil => rw [parseMembers_nil, parseMembers_nil]
      | cons q r0 =>
        rw [parseMembers, parseMembers]
        simp only [List.length_cons] at h1 h2
        split
        · cases hk : scanString none r0 with
          | none => rfl
          | some kr =>
            obtain ⟨k, r1⟩ := kr
            simp only []
            have b1 := scanString_rest_lt r0.length none r0 k r1 (le_refl _) hk
            have b2 := skipSpace_length_le r1
            cases hx : skipSpace r1 with
            | nil => rfl
            | cons x r2 =>
              simp only []
              rw [hx] at b2
              simp only [List.length_cons] at b2
              split
              · cases hv : pv (skipSpace r2) with
                | none => rfl
                | some v =>
                  simp only []
                  have b3 := hpv _ v hv
                  have b4 := skipSpace_length_le r2
                  have b5 := skipSpace_length_le v.rest
                  cases hy : skipSpace v.rest with
                  | nil => rfl
                  | cons y r3 =>
                    simp only []
                    rw [hy] at b5
                    simp only [List.length_cons] at b5
                    have b6 := skipSpace_length_le r3
                    split
                    · exact ih m _ _ _ (by omega) (by omega)
                    · rfl
              · rfl
        · rfl

theorem parseValue_progress : ∀ d : Nat, Progress (parseValue d) := by
  intro d
  induction d with
  | zero =>
    intro cs p h
    rw [parseValue.eq_def] at h
    split at h
    · cases h
    · rename_i depth c cs0
      simp only [List.length_cons]
      split at h
      · simp at h
      · split at h
        · simp at h
        · split at h
          · split at h
            · cases h
            · rename_i s r hs
              simp only [Option.some.injEq] at h
              have := scanString_rest_lt cs0.length none cs0 s r (le_refl _) hs
              rw [← h]; simp only; omega
          · split at h
            · split at h
              · cases h
              · rename_i r hr
                simp only [Option.some.injEq] at h
                have := expect_rest_le _ _ _ hr
                rw [← h]; simp only; omega
            · split at h
              · split at h
                · cases h
                · rename_i r hr
                  simp only [Option.some.injEq] at h
                  have := expect_rest_le _ _ _ hr
                  rw [← h]; simp only; omega
              · split at h
                · split at h
                  · cases h
                  · rename_i r hr
                    simp only [Option.some.injEq] at h
                    have := expect_rest_le _ _ _ hr
                    rw [← h]; simp only; omega
                · split at h
                  · cases h
                  · rename_i n r hn
                    have := scanNumber_rest_lt hn
                    simp only [List.length_cons] at this
                    split at h
                    · simp only [Option.some.injEq] at h
                      rw [← h]; simp only; omega
                    · simp only [Option.some.injEq] at h
                      rw [← h]; simp only; omega
  | succ d ih =>
    intro cs p h
    rw [parseValue.eq_def] at h
    split at h
    · cases h
    · rename_i depth c cs0
      simp only [List.length_cons]
      split at h
      · simp only at h
        have a1 := skipSpace_length_le cs0
        split at h
        · cases h
        · rename_i x r hx
          rw [hx] at a1
          split at h
          · simp only [Option.some.injEq] at h
            simp only [List.length_cons] at a1
            rw [← h]; simp only; omega
          · have := parseMembers_rest_lt _ ih _ _ _ _ _ h
            omega
      · split at h
        · simp only at h
          have a1 := skipSpace_length_le cs0
          split at h
          · cases h
          · rename_i x r hx
            rw [hx] at a1
            split at h
            · simp only [Option.some.injEq] at h
              simp only [List.length_cons] at a1
              rw [← h]; simp only; omega
            · have := parseElems_rest_lt _ ih _ _ _ _ _ h
              omega
        · split at h
          · split at h
            · cases h
            · rename_i s r hs
              simp only [Option.some.injEq] at h
              have := scanString_rest_lt cs0.length none cs0 s r (le_refl _) hs
              rw [← h]; simp only; omega
          · split at h
            · split at h
              · cases h
              · rename_i r hr
                simp only [Option.some.injEq] at h
                have := expect_rest_le _ _ _ hr
                rw [← h]; simp only; omega
            · split at h
              · split at h
                · cases h
                · rename_i r hr
                  simp only [Option.some.injEq] at h
                  have := expect_rest_le _ _ _ hr
                  rw [← h]; simp only; omega
              · split at h
                · split at h
                  · cases h
                  · rename_i r hr
                    simp only [Option.some.injEq] at h
                    have := expect_rest_le _ _ _ hr
                    rw [← h]; simp only; omega
                · split at h
                  · cases h
                  · rename_i n r hn
                    have := scanNumber_rest_lt hn
                    simp only [List.length_cons] at this
                    split at h
                    · simp only [Option.some.injEq] at h
                      rw [← h]; simp only; omega
                    · simp only [Option.some.injEq] at h
                      rw [← h]; simp only; omega

/-- The bound on the loops of the decoder is never what stops them: with any
bound of at least the length of the input the result is the same. -/
theorem loops_have_enough_fuel (d fuel : Nat) (cs : List Char) (h : cs.length ≤ fuel) :
    (∀ acc err, parseElems (parseValue d) fuel acc err cs
        = parseElems (parseValue d) cs.length acc err cs) ∧
    (∀ acc err, parseMembers (parseValue d) fuel acc err cs
        = parseMembers (parseValue d) cs.length acc err cs) :=
  ⟨fun acc err => parseElems_fuel _ (parseValue_progress d) fuel cs.length acc err cs h (le_refl _),
   fun acc err => parseMembers_fuel _ (parseValue_progress d) fuel cs.length acc err cs h
     (le_refl _)⟩

/-! ## The decoder reads the grammar -/

theorem scanString_pending (n : Nat) (L : List Char) (h : pairsWith n L = false) :
    scanString (some n) L = consChar replacementChar (scanString none L) := by
  rw [scanString.eq_def]
  conv_rhs => rw [scanString.eq_def]
  cases L with
  | nil => rfl
  | cons c cs =>
    simp only []
    by_cases h1 : c = '"'
    · simp [h1, flushPending]
    · simp only [h1, if_false]
      by_cases h2 : c = '\\'
      · simp only [h2, if_true]
        cases cs with
        | nil => rfl
        | cons e es =>
          simp only []
          by_cases h3 : e = 'u'
          · simp only [h3, if_true]
            match es with
            | [] => rfl
            | [_] => rfl
            | [_, _] => rfl
            | [_, _, _] => rfl
            | a :: b :: c2 :: d :: rest =>
              simp only []
              cases hg : getu4 a b c2 d with
              | none => rfl
              | some rr =>
                simp only []
                have hd : decodeSurrogates n rr = none := by
                  subst h2 h3
                  simp only [pairsWith, hg, beq_self_eq_true, Bool.true_and] at h
                  cases hx : decodeSurrogates n rr with
                  | none => rfl
                  | some v => simp [hx] at h
                simp only [hd]
          · simp only [h3, if_false]
            cases simpleEscape e with
            | none => rfl
            | some x => simp [flushPending]
      · simp only [h2, if_false]
        by_cases h4 : c.toNat < 32
        · simp [h4, consChar]
        · simp [h4, flushPending]

theorem decodeSurrogates_isSurrogate {hi lo : Nat} {dec : Char}
    (h : decodeSurrogates hi lo = some dec) : isSurrogate hi = true := by
  unfold decodeSurrogates at h
  split at h
  · rename_i hc
    simp [isSurrogate]
    omega
  · cases h

theorem simpleEscape_ne_u {e x : Char} (h : simpleEscape e = some x) : e ≠ 'u' := by
  rintro rfl
  simp [simpleEscape] at h

theorem pairsWith_head_ne (n : Nat) (c : Char) (L : List Char) (h : c ≠ '\\') :
    pairsWith n (c :: L) = false := by
  unfold pairsWith
  split
  · rename_i heq
    simp only [List.cons.injEq] at heq
    simp [← heq.1, h]
  · rfl

theorem pairsWith_second_ne (n : Nat) (e : Char) (L : List Char) (h : e ≠ 'u') :
    pairsWith n ('\\' :: e :: L) = false := by
  unfold pairsWith
  split
  · rename_i heq
    simp only [List.cons.injEq] at heq
    simp [← heq.2.1, h]
  · rfl

theorem pairsWith_append {raw s : List Char} (h : StringText raw s) (n : Nat)
    (rest : List Char) : pairsWith n (raw ++ '"' :: rest) = pairsWith n raw := by
  cases h with
  | done =>
    cases rest with
    | nil => rfl
    | cons _ r => match r with
      | [] => rfl
      | [_] => rfl
      | [_, _] => rfl
      | [_, _, _] => rfl
      | _ :: _ :: _ :: _ :: _ => simp [pairsWith]
  | plain c raw s h1 h2 h3 hs =>
    rw [List.cons_append, pairsWith_head_ne _ _ _ h2, pairsWith_head_ne _ _ _ h2]
  | escape e x raw s he hs =>
    rw [List.cons_append, List.cons_append, pairsWith_second_ne _ _ _ (simpleEscape_ne_u he),
      pairsWith_second_ne _ _ _ (simpleEscape_ne_u he)]
  | unit a b c d m raw s hg hn hs => simp [pairsWith]
  | pair a b c d a2 b2 c2 d2 hi lo dec raw s h1 h2 h3 hs => simp [pairsWith]
  | lone a b c d m raw s hg hn hp hs => simp [pairsWith]

/-- The decoder reads every string literal of the grammar as the text it spells. -/
theorem scanString_complete {raw s : List Char} (h : StringText raw s) :
    ∀ rest, scanString none (raw ++ '"' :: rest) = some (s, rest) := by
  induction h with
  | done =>
    intro rest
    rw [List.nil_append, scanString.eq_def]
    simp [flushPending]
  | plain c raw s h1 h2 h3 _ ih =>
    intro rest
    rw [List.cons_append, scanString_plain c _ h1 h2 (by omega), ih]
    rfl
  | escape e x raw s he _ ih =>
    intro rest
    rw [List.cons_append, List.cons_append, scanString_simple e x _ he (simpleEscape_ne_u he), ih]
    rfl
  | unit a b c d n raw s hg hn _ ih =>
    intro rest
    simp only [List.cons_append]
    rw [scanString_u a b c d n _ hg hn, ih]
    rfl
  | pair a b c d a2 b2 c2 d2 hi lo dec raw s h1 h2 h3 _ ih =>
    intro rest
    simp only [List.cons_append]
    rw [scanString.eq_def]
    simp only [h1, decodeSurrogates_isSurrogate h3]
    simp +decide only [if_true, if_false]
    rw [scanString.eq_def]
    simp +decide only [h2, h3, if_true, if_false, ih]
    rfl
  | lone a b c d n raw s hg hn hp hs ih =>
    intro rest
    simp only [List.cons_append]
    rw [scanString.eq_def]
    simp +decide only [hg, hn, if_true, if_false]
    rw [scanString_pending n _ (by rw [pairsWith_append hs]; exact hp), ih]
    rfl


theorem takeDigits_append (ds R : List Char) (h : allDigits ds = true)
    (hR : ∀ c r, R = c :: r → isDigit c = false) : takeDigits (ds ++ R) = (ds, R) := by
  induction ds with
  | nil =>
    cases R with
    | nil => rfl
    | cons c r => simp [takeDigits, hR c r rfl]
  | cons d ds ih =>
    simp only [allDigits, List.all_cons, Bool.and_eq_true] at h
    have ih' := ih (by simpa [allDigits] using h.2)
    rw [List.cons_append, takeDigits]
    simp only [h.1, if_true, ih', List.cons]

theorem endsNumber_of_endsValue {rest : List Char} (h : EndsValue rest) : EndsNumber rest := by
  intro c r hc
  rcases h c r hc with hs | rfl | rfl | rfl
  · simp only [isSpace, Bool.or_eq_true, beq_iff_eq] at hs
    rcases hs with ((rfl | rfl) | rfl) | rfl <;> decide
  · decide
  · decide
  · decide

theorem scanInt_complete (ints R : List Char)
    (h : (match ints with
      | [] => false
      | d :: ds => if d = '0' then ds.isEmpty else isDigit d && allDigits ds) = true)
    (hR : ∀ c r, R = c :: r → isDigit c = false) :
    scanInt (ints ++ R) = some (ints, R) := by
  cases ints with
  | nil => simp at h
  | cons d ds =>
    simp only at h
    by_cases hd : d = '0'
    · simp only [hd, if_true, List.isEmpty_eq_true] at h
      subst h
      subst hd
      rfl
    · simp only [hd, if_false, Bool.and_eq_true] at h
      simp only [List.cons_append, scanInt, hd, if_false, h.1, if_true,
        takeDigits_append ds R h.2 hR]

theorem scanFrac_complete (fracs R : List Char) (h : allDigits fracs = true)
    (hR : ∀ c r, R = c :: r → isDigit c = false ∧ c ≠ '.') :
    scanFrac ((if fracs.isEmpty then [] else '.' :: fracs) ++ R) = some (fracs, R) := by
  cases fracs with
  | nil =>
    simp only [List.isEmpty_nil, if_true, List.nil_append]
    cases R with
    | nil => rfl
    | cons c r => simp [scanFrac, (hR c r rfl).2]
  | cons f fs =>
    have ht := takeDigits_append (f :: fs) R h (fun c r hc => (hR c r hc).1)
    simp only [List.isEmpty_cons, Bool.false_eq_true, if_false, List.cons_append, scanFrac,
      if_true]
    simp only [List.cons_append] at ht
    rw [ht]
    simp

theorem isDigit_ne_sign {x : Char} (h : isDigit x = true) : ¬ (x = '+' ∨ x = '-') := by
  rintro (rfl | rfl) <;> simp [isDigit] at h

theorem scanExp_complete (mark exps rest : List Char)
    (h : (match mark with
      | [] => exps.isEmpty
      | [e] => (e == 'e' || e == 'E') && !exps.isEmpty && allDigits exps
      | [e, s] =>
        (e == 'e' || e == 'E') && (s == '+' || s == '-') && !exps.isEmpty && allDigits exps
      | _ => false) = true)
    (hR : EndsNumber rest) :
    scanExp (mark ++ (exps ++ rest)) = some (mark, exps, rest) := by
  have hRd : ∀ c r, rest = c :: r → isDigit c = false := fun c r hc => (hR c r hc).1
  match mark, h with
  | [], h =>
    simp only [List.isEmpty_eq_true] at h
    subst h
    simp only [List.nil_append]
    cases rest with
    | nil => rfl
    | cons c r =>
      have := hR c r rfl
      simp [scanExp, this.2.2.1, this.2.2.2]
  | [e], h =>
    simp only [Bool.and_eq_true, Bool.or_eq_true, beq_iff_eq, Bool.not_eq_true',
      List.isEmpty_eq_false] at h
    obtain ⟨⟨he, hne⟩, hd⟩ := h
    cases exps with
    | nil => simp at hne
    | cons x xs =>
      have hx : isDigit x = true := by
        simp only [allDigits, List.all_cons, Bool.and_eq_true] at hd
        exact hd.1
      have ht := takeDigits_append (x :: xs) rest hd hRd
      simp only [List.cons_append] at ht
      simp only [List.cons_append, List.nil_append, scanExp, he, if_true, isDigit_ne_sign hx,
        if_false, ht]
      simp
  | [e, sg], h =>
    simp only [Bool.and_eq_true, Bool.or_eq_true, beq_iff_eq, Bool.not_eq_true',
      List.isEmpty_eq_false] at h
    obtain ⟨⟨⟨he, hsg⟩, hne⟩, hd⟩ := h
    have ht := takeDigits_append exps rest hd hRd
    simp only [List.cons_append, List.nil_append, scanExp, he, if_true, hsg, ht]
    cases exps with
    | nil => simp at hne
    | cons x xs => simp
  | _ :: _ :: _ :: _, h => simp at h

theorem isDigit_zero : isDigit '0' = true := by decide

theorem scanNumber_complete (n : NumLit) (rest : List Char) (h : n.wellFormed = true)
    (hR : EndsNumber rest) : scanNumber (n.source ++ rest) = some (n, rest) := by
  obtain ⟨neg, ints, fracs, mark, exps⟩ := n
  simp only [NumLit.wellFormed, Bool.and_eq_true] at h
  obtain ⟨⟨hi, hf⟩, he⟩ := h
  have hexp := scanExp_complete mark exps rest he hR
  have hR2 : ∀ c r, mark ++ (exps ++ rest) = c :: r → isDigit c = false ∧ c ≠ '.' := by
    intro c r hc
    match mark, he, hc with
    | [], he, hc =>
      simp only [List.isEmpty_eq_true] at he
      subst he
      exact ⟨(hR c r hc).1, (hR c r hc).2.1⟩
    | [e], he, hc =>
      simp only [List.cons_append, List.cons.injEq] at hc
      simp only [Bool.and_eq_true, Bool.or_eq_true, beq_iff_eq] at he
      rw [← hc.1]
      rcases he.1.1 with rfl | rfl <;> decide
    | [e, _], he, hc =>
      simp only [List.cons_append, List.cons.injEq] at hc
      simp only [Bool.and_eq_true, Bool.or_eq_true, beq_iff_eq] at he
      rw [← hc.1]
      rcases he.1.1.1 with rfl | rfl <;> decide
    | _ :: _ :: _ :: _, he, _ => simp at he
  have hfrac := scanFrac_complete fracs (mark ++ (exps ++ rest)) hf hR2
  have hR1 : ∀ c r, (if fracs.isEmpty then [] else '.' :: fracs) ++ (mark ++ (exps ++ rest))
      = c :: r → isDigit c = false := by
    intro c r hc
    cases fracs with
    | nil => exact (hR2 c r (by simpa using hc)).1
    | cons f fs =>
      simp only [List.isEmpty_cons, Bool.false_eq_true, if_false, List.cons_append,
        List.cons.injEq] at hc
      rw [← hc.1]
      decide
  have hint := scanInt_complete ints _ hi hR1
  have hsrc : NumLit.source ⟨neg, ints, fracs, mark, exps⟩ ++ rest =
      (if neg = true then ['-'] else []) ++ (ints ++
        ((if fracs.isEmpty then [] else '.' :: fracs) ++ (mark ++ (exps ++ rest)))) := by
    simp [NumLit.source, List.append_assoc]
  rw [hsrc]
  cases neg with
  | true =>
    simp only [if_true, List.cons_append, List.nil_append, scanNumber, decide_True,
      List.tail_cons, hint, hfrac, hexp]
  | false =>
    have hfirst : ∃ d ds, ints = d :: ds ∧ d ≠ '-' := by
      cases ints with
      | nil => simp at hi
      | cons d ds =>
        refine ⟨d, ds, rfl, ?_⟩
        rintro rfl
        simp [isDigit] at hi
    obtain ⟨d, ds, rfl, hd⟩ := hfirst
    simp only [Bool.false_eq_true, if_false, List.nil_append, List.cons_append, scanNumber,
      hd, decide_False]
    simp only [List.cons_append] at hint
    simp only [hint, hfrac, hexp]

theorem source_head (n : NumLit) (rest : List Char) (h : n.wellFormed = true) :
    ∃ c cs, n.source ++ rest = c :: cs ∧ (c = '-' ∨ isDigit c = true) := by
  obtain ⟨neg, ints, fracs, mark, exps⟩ := n
  simp only [NumLit.wellFormed, Bool.and_eq_true] at h
  obtain ⟨⟨hi, -⟩, -⟩ := h
  cases neg with
  | true => exact ⟨'-', _, rfl, Or.inl rfl⟩
  | false =>
    cases ints with
    | nil => simp at hi
    | cons d ds =>
      refine ⟨d, _, rfl, Or.inr ?_⟩
      simp only at hi
      by_cases hd : d = '0'
      · subst hd; decide
      · simp only [hd, if_false, Bool.and_eq_true] at hi
        exact hi.1

theorem number_head_ne {c : Char} (h : c = '-' ∨ isDigit c = true) :
    c ≠ '{' ∧ c ≠ '[' ∧ c ≠ '"' ∧ c ≠ 't' ∧ c ≠ 'f' ∧ c ≠ 'n' ∧ isSpace c = false ∧
      c ≠ ']' ∧ c ≠ '}' := by
  rcases h with rfl | h
  · decide
  · refine ⟨?_, ?_, ?_, ?_, ?_, ?_, ?_, ?_, ?_⟩ <;>
      first
        | (rintro rfl; simp [isDigit] at h)
        | (cases hs : isSpace c with
           | false => rfl
           | true =>
             simp only [isSpace, Bool.or_eq_true, beq_iff_eq] at hs
             rcases hs with ((rfl | rfl) | rfl) | rfl <;> simp [isDigit] at h)

/-- The decoder reads every scalar of the grammar as the value it denotes. -/
theorem parseValue_scalar {text : List Char} {v : GoAny} (h : ScalarText text v) (d : Nat) :
    ∀ rest, EndsValue rest → parseValue d (text ++ rest) = some ⟨v, none, rest⟩ := by
  intro rest hrest
  cases h with
  | null => rw [parseValue.eq_def]; simp [expect]
  | true => rw [parseValue.eq_def]; simp [expect]
  | false => rw [parseValue.eq_def]; simp [expect]
  | number n hw ho =>
    obtain ⟨c, cs, hc, hd⟩ := source_head n rest hw
    have hne := number_head_ne hd
    have hs := scanNumber_complete n rest hw (endsNumber_of_endsValue hrest)
    rw [hc] at hs ⊢
    rw [parseValue.eq_def]
    simp only [hne.1, hne.2.1, hne.2.2.1, hne.2.2.2.1, hne.2.2.2.2.1, hne.2.2.2.2.2.1, if_false,
      hs, convertNumber, ho, Bool.false_eq_true]
  | string raw s hs =>
    rw [parseValue.eq_def]
    simp [scanString_complete hs]

theorem startsValue_scalar {text : List Char} {v : GoAny} (h : ScalarText text v) :
    StartsValue text := by
  cases h with
  | null => exact ⟨_, _, rfl, by decide, by decide, by decide⟩
  | true => exact ⟨_, _, rfl, by decide, by decide, by decide⟩
  | false => exact ⟨_, _, rfl, by decide, by decide, by decide⟩
  | number n hw ho =>
    obtain ⟨c, cs, hc, hd⟩ := source_head n [] hw
    have hne := number_head_ne hd
    rw [List.append_nil] at hc
    exact ⟨c, cs, hc, hne.2.2.2.2.2.2.1, hne.2.2.2.2.2.2.2.1, hne.2.2.2.2.2.2.2.2⟩
  | string raw s hs => exact ⟨_, _, rfl, by decide, by decide, by decide⟩

theorem skipSpace_allSpace (ws X : List Char) (h : AllSpace ws) :
    skipSpace (ws ++ X) = skipSpace X := by
  induction ws with
  | nil => rfl
  | cons c ws ih =>
    have hc : isSpace c = true := h c (List.mem_cons_self _ _)
    have hws : AllSpace ws := fun x hx => h x (List.mem_cons_of_mem _ hx)
    rw [List.cons_append, skipSpace]
    simp only [hc, if_true]
    exact ih hws

theorem skipSpace_startsValue (text X : List Char) (h : StartsValue text) :
    skipSpace (text ++ X) = text ++ X := by
  obtain ⟨c, cs, rfl, hc, -, -⟩ := h
  exact skipSpace_cons_of_not_space _ _ hc

theorem endsValue_space_then (ws : List Char) (c : Char) (X : List Char) (h : AllSpace ws)
    (hc : c = ',' ∨ c = ']' ∨ c = '}') : EndsValue (ws ++ c :: X) := by
  intro x r hx
  cases ws with
  | nil =>
    simp only [List.nil_append, List.cons.injEq] at hx
    rw [← hx.1]
    exact Or.inr hc
  | cons w ws =>
    simp only [List.cons_append, List.cons.injEq] at hx
    rw [← hx.1]
    exact Or.inl (h w (List.mem_cons_self _ _))

theorem skipSpace_space_then (ws : List Char) (c : Char) (X : List Char) (h : AllSpace ws)
    (hc : isSpace c = false) : skipSpace (ws ++ c :: X) = c :: X := by
  rw [skipSpace_allSpace _ _ h]
  exact skipSpace_cons_of_not_space _ _ hc

theorem startsValue_elems {J : List Char → GoAny → Prop}
    (hJ : ∀ text v, J text v → StartsValue text) {body : List Char} {vs : List GoAny}
    (h : ElemsText J body vs) : StartsValue body := by
  cases h with
  | last text v ws hv hws =>
    obtain ⟨c, cs, rfl, h1, h2, h3⟩ := hJ text v hv
    exact ⟨c, _, rfl, h1, h2, h3⟩
  | more text v ws1 ws2 tail vs hv h1 h2 ht =>
    obtain ⟨c, cs, rfl, h1, h2, h3⟩ := hJ text v hv
    exact ⟨c, _, rfl, h1, h2, h3⟩

theorem startsValue_length {text : List Char} (h : StartsValue text) : 1 ≤ text.length := by
  obtain ⟨c, cs, rfl, -, -, -⟩ := h
  simp

/-- The loop over the elements of an array reads the elements of the grammar, if
the decoder of one element does. -/
theorem parseElems_complete {J : List Char → GoAny → Prop} {pv : List Char → Option Parsed}
    (hJ : ∀ text v, J text v → StartsValue text)
    (hpv : ∀ text v, J text v → ∀ rest, EndsValue rest → pv (text ++ rest) = some ⟨v, none, rest⟩)
    {body : List Char} {vs : List GoAny} (h : ElemsText J body vs) :
    ∀ (fuel : Nat) (acc : List GoAny) (rest : List Char), (body ++ rest).length ≤ fuel →
      parseElems pv fuel acc none (body ++ rest) = some ⟨.slice (acc ++ vs), none, rest⟩ := by
  induction h with
  | last text v ws hv hws =>
    intro fuel acc rest hfuel
    have hlen := startsValue_length (hJ text v hv)
    simp only [List.length_append] at hfuel
    obtain ⟨f, rfl⟩ : ∃ f, fuel = f + 1 := ⟨fuel - 1, by omega⟩
    have hcs : text ++ (ws ++ [']']) ++ rest = text ++ (ws ++ ']' :: rest) := by simp
    rw [hcs, parseElems, hpv text v hv _ (endsValue_space_then ws ']' rest hws (by simp))]
    simp only []
    rw [skipSpace_space_then ws ']' rest hws (by decide)]
    simp +decide [saveError]
  | more text v ws1 ws2 tail vs hv h1 h2 ht ih =>
    intro fuel acc rest hfuel
    have hlen := startsValue_length (hJ text v hv)
    simp only [List.length_append, List.length_cons] at hfuel
    obtain ⟨f, rfl⟩ : ∃ f, fuel = f + 1 := ⟨fuel - 1, by omega⟩
    have hcs : text ++ (ws1 ++ ',' :: (ws2 ++ tail)) ++ rest
        = text ++ (ws1 ++ ',' :: (ws2 ++ (tail ++ rest))) := by simp
    rw [hcs, parseElems, hpv text v hv _ (endsValue_space_then ws1 ',' _ h1 (by simp))]
    simp only []
    rw [skipSpace_space_then ws1 ',' _ h1 (by decide)]
    simp only [if_true]
    rw [skipSpace_allSpace _ _ h2, skipSpace_startsValue _ _ (startsValue_elems hJ ht)]
    rw [show saveError none none = none from rfl, ih f (acc ++ [v]) rest (by
      simp only [List.length_append]; omega)]
    simp

theorem startsValue_members {J : List Char → GoAny → Prop} {body : List Char}
    {ms : List (String × GoAny)} (h : MembersText J body ms) :
    ∃ cs, body = '"' :: cs := by
  cases h with
  | last raw k ws1 ws2 text v ws3 _ _ _ _ _ => exact ⟨_, rfl⟩
  | more raw k ws1 ws2 text v ws3 ws4 tail ms _ _ _ _ _ _ _ => exact ⟨_, rfl⟩

/-- The loop over the members of an object reads the members of the grammar, if
the decoder of one value does. -/
theorem parseMembers_complete {J : List Char → GoAny → Prop} {pv : List Char → Option Parsed}
    (hJ : ∀ text v, J text v → StartsValue text)
    (hpv : ∀ text v, J text v → ∀ rest, EndsValue rest → pv (text ++ rest) = some ⟨v, none, rest⟩)
    {body : List Char} {ms : List (String × GoAny)} (h : MembersText J body ms) :
    ∀ (fuel : Nat) (acc : GoMap) (rest : List Char), (body ++ rest).length ≤ fuel →
      parseMembers pv fuel acc none (body ++ rest) =
        some ⟨.map (ms.foldl (fun m kv => mapSet m kv.1 kv.2) acc), none, rest⟩ := by
  induction h with
  | last raw k ws1 ws2 text v ws3 hk h1 h2 hv h3 =>
    intro fuel acc rest hfuel
    simp only [List.length_append, List.length_cons] at hfuel
    obtain ⟨f, rfl⟩ : ∃ f, fuel = f + 1 := ⟨fuel - 1, by omega⟩
    have hcs : '"' :: (raw ++ '"' :: (ws1 ++ ':' :: (ws2 ++ (text ++ (ws3 ++ ['}']))))) ++ rest
        = '"' :: (raw ++ '"' :: (ws1 ++ ':' :: (ws2 ++ (text ++ (ws3 ++ '}' :: rest))))) := by
      simp
    rw [hcs, parseMembers]
    simp only [if_true, scanString_complete hk]
    rw [skipSpace_space_then ws1 ':' _ h1 (by decide)]
    simp only [if_true]
    rw [skipSpace_allSpace _ _ h2, skipSpace_startsValue _ _ (hJ text v hv),
      hpv text v hv _ (endsValue_space_then ws3 '}' rest h3 (by simp))]
    simp only []
    rw [skipSpace_space_then ws3 '}' rest h3 (by decide)]
    simp +decide [saveError]
  | more raw k ws1 ws2 text v ws3 ws4 tail ms hk h1 h2 hv h3 h4 ht ih =>
    intro fuel acc rest hfuel
    simp only [List.length_append, List.length_cons] at hfuel
    obtain ⟨f, rfl⟩ : ∃ f, fuel = f + 1 := ⟨fuel - 1, by omega⟩
    have hcs : '"' :: (raw ++ '"' :: (ws1 ++ ':' :: (ws2 ++ (text ++ (ws3 ++ ',' ::
          (ws4 ++ tail)))))) ++ rest
        = '"' :: (raw ++ '"' :: (ws1 ++ ':' :: (ws2 ++ (text ++ (ws3 ++ ',' ::
          (ws4 ++ (tail ++ rest))))))) := by
      simp
    rw [hcs, parseMembers]
    simp only [if_true, scanString_complete hk]
    rw [skipSpace_space_then ws1 ':' _ h1 (by decide)]
    simp only [if_true]
    rw [skipSpace_allSpace _ _ h2, skipSpace_startsValue _ _ (hJ text v hv),
      hpv text v hv _ (endsValue_space_then ws3 ',' _ h3 (by simp))]
    simp only []
    rw [skipSpace_space_then ws3 ',' _ h3 (by decide)]
    simp only [if_true]
    obtain ⟨tcs, htail⟩ := startsValue_members ht
    rw [skipSpace_allSpace _ _ h4]
    have hsk : skipSpace (tail ++ rest) = tail ++ rest := by
      rw [htail]
      exact skipSpace_cons_of_not_space _ _ (by decide)
    rw [hsk, show saveError none none = none from rfl, ih f _ rest (by
      simp only [List.length_append]; omega)]
    simp

theorem parseValue_container {d : Nat} {text : List Char} {v : GoAny}
    (hJ : ∀ text v, JsonText d text v → StartsValue text)
    (hpv : ∀ text v, JsonText d text v → ∀ rest, EndsValue rest →
      parseValue d (text ++ rest) = some ⟨v, none, rest⟩)
    (h : ContainerText (JsonText d) text v) (rest : List Char) :
    parseValue (d + 1) (text ++ rest) = some ⟨v, none, rest⟩ := by
  cases h with
  | emptyArray ws hws =>
    have hcs : '[' :: (ws ++ [']']) ++ rest = '[' :: (ws ++ ']' :: rest) := by simp
    rw [hcs, parseValue]
    simp +decide only [if_true, if_false]
    rw [skipSpace_space_then ws ']' rest hws (by decide)]
    simp only [if_true]
  | array ws body vs hws hb =>
    have hcs : '[' :: (ws ++ body) ++ rest = '[' :: (ws ++ (body ++ rest)) := by simp
    rw [hcs, parseValue]
    simp +decide only [if_true, if_false]
    rw [skipSpace_allSpace _ _ hws, skipSpace_startsValue _ _ (startsValue_elems hJ hb)]
    obtain ⟨c, cs, hbody, -, hc, -⟩ := startsValue_elems hJ hb
    have hlen : (body ++ rest).length ≤ (ws ++ (body ++ rest)).length := by
      simp only [List.length_append]; omega
    have key := parseElems_complete hJ hpv hb _ [] rest hlen
    rw [hbody, List.cons_append] at key ⊢
    simp only [hc, if_false]
    rw [key]
    simp
  | emptyObject ws hws =>
    have hcs : '{' :: (ws ++ ['}']) ++ rest = '{' :: (ws ++ '}' :: rest) := by simp
    rw [hcs, parseValue]
    simp +decide only [if_true, if_false]
    rw [skipSpace_space_then ws '}' rest hws (by decide)]
    simp only [if_true]
  | object ws body ms hws hb =>
    have hcs : '{' :: (ws ++ body) ++ rest = '{' :: (ws ++ (body ++ rest)) := by simp
    rw [hcs, parseValue]
    simp +decide only [if_true, if_false]
    obtain ⟨cs, hbody⟩ := startsValue_members hb
    have hsk : skipSpace (body ++ rest) = body ++ rest := by
      rw [hbody]
      exact skipSpace_cons_of_not_space _ _ (by decide)
    rw [skipSpace_allSpace _ _ hws, hsk]
    have hlen : (body ++ rest).length ≤ (ws ++ (body ++ rest)).length := by
      simp only [List.length_append]; omega
    have key := parseMembers_complete hJ hpv hb _ [] rest hlen
    rw [hbody, List.cons_append] at key ⊢
    simp +decide only [if_false]
    rw [key]
    rfl

theorem startsValue_container {J : List Char → GoAny → Prop} {text : List Char} {v : GoAny}
    (h : ContainerText J text v) : StartsValue text := by
  cases h with
  | emptyArray ws hws => exact ⟨'[', _, rfl, by decide, by decide, by decide⟩
  | array ws body vs hws hb => exact ⟨'[', _, rfl, by decide, by decide, by decide⟩
  | emptyObject ws hws => exact ⟨'{', _, rfl, by decide, by decide, by decide⟩
  | object ws body ms hws hb => exact ⟨'{', _, rfl, by decide, by decide, by decide⟩

theorem startsValue_json (d : Nat) {text : List Char} {v : GoAny} (h : JsonText d text v) :
    StartsValue text := by
  cases d with
  | zero => exact startsValue_scalar h
  | succ d =>
    rcases h with h | h
    · exact startsValue_scalar h
    · exact startsValue_container h

/-- The decoder reads every text of the grammar, and gives the value the
grammar gives it. -/
theorem parseValue_complete (d : Nat) : ∀ (text : List Char) (v : GoAny), JsonText d text v →
    ∀ rest, EndsValue rest → parseValue d (text ++ rest) = some ⟨v, none, rest⟩ := by
  induction d with
  | zero =>
    intro text v h rest hrest
    exact parseValue_scalar h 0 rest hrest
  | succ d ih =>
    intro text v h rest hrest
    rcases h with h | h
    · exact parseValue_scalar h (d + 1) rest hrest
    · exact parseValue_container (fun t w hw => startsValue_json d hw) ih h rest

theorem skipSpace_of_allSpace (ws : List Char) (h : AllSpace ws) : skipSpace ws = [] := by
  have := skipSpace_allSpace ws [] h
  rwa [List.append_nil] at this

theorem endsValue_of_allSpace (ws : List Char) (h : AllSpace ws) : EndsValue ws := by
  intro c r hc
  exact Or.inl (h c (by rw [hc]; exact List.mem_cons_self _ _))

/-- A document of the grammar is parsed to the value the grammar gives it. -/
theorem parseDocument_complete {body : String} {v : GoAny} (h : DocumentText body v) :
    ∃ r, parseDocument body = some ⟨v, none, r⟩ := by
  obtain ⟨ws1, text, ws2, hbody, h1, h2, hv⟩ := h
  refine ⟨ws2, ?_⟩
  rw [parseDocument, hbody, skipSpace_allSpace _ _ h1,
    skipSpace_startsValue _ _ (startsValue_json _ hv),
    parseValue_complete _ text v hv ws2 (endsValue_of_allSpace ws2 h2)]
  simp only [skipSpace_of_allSpace ws2 h2, List.isEmpty_nil, if_true]

/-- A document of the grammar that is an object is decoded without an error,
into the mapping the grammar gives it. -/
theorem json_Unmarshal_complete (syn : String → String) {body : String} {kvs : GoMap}
    (h : DocumentText body (.map kvs)) : json_Unmarshal syn body = .ok (some kvs) := by
  obtain ⟨r, hr⟩ := parseDocument_complete h
  simp only [json_Unmarshal, hr]

/-! ## The mapping of an object -/

theorem mapSet_keys (m : GoMap) (k : String) (v : GoAny) (k1 : String) :
    k1 ∈ (mapSet m k v).map Prod.fst ↔ k1 = k ∨ k1 ∈ m.map Prod.fst := by
  induction m with
  | nil => simp [mapSet]
  | cons kv m ih =>
    obtain ⟨k0, v0⟩ := kv
    rw [mapSet]
    by_cases h : k0 = k
    · simp only [h, if_true, List.map_cons, List.mem_cons]
      tauto
    · simp only [h, if_false, List.map_cons, List.mem_cons, ih]
      tauto

theorem mapSet_nodup (m : GoMap) (k : String) (v : GoAny) (h : (m.map Prod.fst).Nodup) :
    ((mapSet m k v).map Prod.fst).Nodup := by
  induction m with
  | nil => simp [mapSet]
  | cons kv m ih =>
    obtain ⟨k0, v0⟩ := kv
    rw [List.map_cons, List.nodup_cons] at h
    rw [mapSet]
    by_cases hk : k0 = k
    · simp only [hk, if_true, List.map_cons, List.nodup_cons]
      exact ⟨hk ▸ h.1, h.2⟩
    · simp only [hk, if_false, List.map_cons, List.nodup_cons]
      refine ⟨?_, ih h.2⟩
      rw [mapSet_keys]
      rintro (h1 | h1)
      · exact hk h1
      · exact h.1 h1

theorem mapSet_mem (m : GoMap) (k : String) (v : GoAny) (h : (m.map Prod.fst).Nodup)
    (k1 : String) (v1 : GoAny) :
    (k1, v1) ∈ mapSet m k v ↔ (k1 = k ∧ v1 = v) ∨ (k1 ≠ k ∧ (k1, v1) ∈ m) := by
  induction m with
  | nil => simp [mapSet]
  | cons kv m ih =>
    obtain ⟨k0, v0⟩ := kv
    rw [List.map_cons, List.nodup_cons] at h
    rw [mapSet]
    by_cases hk : k0 = k
    · subst hk
      simp only [if_true, List.mem_cons, Prod.mk.injEq]
      constructor
      · rintro (h1 | h1)
        · exact Or.inl h1
        · refine Or.inr ⟨?_, Or.inr h1⟩
          rintro rfl
          exact h.1 (List.mem_map.mpr ⟨_, h1, rfl⟩)
      · rintro (h1 | ⟨h1, h2 | h2⟩)
        · exact Or.inl h1
        · exact absurd h2.1 h1
        · exact Or.inr h2
    · simp only [hk, if_false, List.mem_cons, Prod.mk.injEq, ih h.2]
      constructor
      · rintro (⟨h1, h2⟩ | h1 | h1)
        · refine Or.inr ⟨?_, Or.inl ⟨h1, h2⟩⟩
          rw [h1]
          exact hk
        · exact Or.inl h1
        · exact Or.inr ⟨h1.1, Or.inr h1.2⟩
      · rintro (h1 | ⟨h1, h2 | h2⟩)
        · exact Or.inr (Or.inl h1)
        · exact Or.inl h2
        · exact Or.inr (Or.inr ⟨h1, h2⟩)

theorem foldl_mapSet_spec (ms : List (String × GoAny)) :
    ∀ acc : GoMap, (acc.map Prod.fst).Nodup →
      ((ms.foldl (fun m kv => mapSet m kv.1 kv.2) acc).map Prod.fst).Nodup ∧
      (∀ k, k ∈ (ms.foldl (fun m kv => mapSet m kv.1 kv.2) acc).map Prod.fst ↔
        k ∈ acc.map Prod.fst ∨ k ∈ ms.map Prod.fst) ∧
      (∀ k v, (k, v) ∈ ms.foldl (fun m kv => mapSet m kv.1 kv.2) acc ↔
        lastValue ms k = some v ∨ (lastValue ms k = none ∧ (k, v) ∈ acc)) := by
  induction ms with
  | nil =>
    intro acc hacc
    simp [lastValue, hacc]
  | cons kv ms ih =>
    obtain ⟨k0, v0⟩ := kv
    intro acc hacc
    obtain ⟨h1, h2, h3⟩ := ih (mapSet acc k0 v0) (mapSet_nodup acc k0 v0 hacc)
    refine ⟨h1, ?_, ?_⟩
    · intro k
      rw [List.foldl_cons, h2, mapSet_keys, List.map_cons, List.mem_cons]
      tauto
    · intro k v
      rw [List.foldl_cons, h3, mapSet_mem acc k0 v0 hacc, lastValue]
      cases hl : lastValue ms k with
      | some w => simp
      | none =>
        by_cases hk : k0 = k
        · subst hk
          simp only [if_true, Option.some.injEq, true_and, ne_eq, not_true_eq_false, false_and,
            or_false, false_or, reduceCtorEq]
          exact eq_comm
        · have hk2 : ¬ k = k0 := fun h => hk h.symm
          simp [hk, hk2]

/-- The mapping of an object binds each key written in it once, and binds it to
the value of the last member with that key. -/
theorem bindAll_spec (ms : List (String × GoAny)) :
    ((bindAll ms).map Prod.fst).Nodup ∧
    (∀ k, k ∈ (bindAll ms).map Prod.fst ↔ k ∈ ms.map Prod.fst) ∧
    (∀ k v, (k, v) ∈ bindAll ms ↔ lastValue ms k = some v) := by
  obtain ⟨h1, h2, h3⟩ := foldl_mapSet_spec ms [] List.nodup_nil
  refine ⟨h1, ?_, ?_⟩
  · intro k
    have := h2 k
    simpa [bindAll] using this
  · intro k v
    have := h3 k v
    simpa [bindAll] using this

/-! ## Responses whose body is an object -/

theorem documentText_of_object {body : String} {ms : List (String × GoAny)}
    (h : ObjectDocument body ms) : DocumentText body (.map (bindAll ms)) := by
  obtain ⟨ws1, text, ws2, depth, hbody, h1, h2, hd, ht⟩ := h
  refine ⟨ws1, text, ws2, hbody, h1, h2, ?_⟩
  rw [← hd]
  refine Or.inr ?_
  cases ht with
  | empty ws hws => exact ContainerText.emptyObject ws hws
  | members ws mbody ms hws hm => exact ContainerText.object ws mbody ms hws hm

/-- C5 (as amended): for both commands, a response with status 200 whose body is
a JSON object the decoder accepts (nesting within the limit, every number within
the range of `float64`) is decoded once, the render sink is called exactly once,
with the mapping `bindAll ms` of the members `ms` written in the object, and
the command returns what the sink returns.  That mapping has the keys written in
the object and no other, each once, and binds each key to the value written for
it (the last one, if the key is written more than once). -/
theorem object_body_is_rendered_once (c : Collaborators) (f : Bool) (t col : GoString)
    (out : Outcome) (r : Request) (body : String) (ms : List (String × GoAny))
    (hrun : tableLineageRunE (goEnv c) f [t] = some out ∨
      columnLineageRunE (goEnv c) [t, col] = some out)
    (hcalls : httpCalls out.trace = [r]) (hdo : c.Do r = .ok ⟨200, .ok body⟩)
    (hdoc : ObjectDocument body ms) :
    decoded out.trace = [body] ∧ rendered out.trace = [some (bindAll ms)] ∧
      out.err = c.Render (some (bindAll ms)) ∧
      ((bindAll ms).map Prod.fst).Nodup ∧
      (∀ k, k ∈ (bindAll ms).map Prod.fst ↔ k ∈ ms.map Prod.fst) ∧
      (∀ k v, (k, v) ∈ bindAll ms ↔ lastValue ms k = some v) := by
  obtain ⟨payload, path, rfl⟩ := handler_is_shared (goEnv c) f t col out hrun
  have hu : (goEnv c).Unmarshal body = .ok (some (bindAll ms)) :=
    json_Unmarshal_complete c.syntaxText (documentText_of_object hdoc)
  obtain ⟨h1, h2, h3⟩ := (shared_status_ok (goEnv c) payload path body r hcalls hdo).2 _ hu
  obtain ⟨k1, k2, k3⟩ := bindAll_spec ms
  exact ⟨h2, h3, h1, k1, k2, k3⟩

theorem stringText_plain (s : List Char)
    (h : ∀ c ∈ s, c ≠ '"' ∧ c ≠ '\\' ∧ 32 ≤ c.toNat) : StringText s s := by
  induction s with
  | nil => exact StringText.done
  | cons c s ih =>
    obtain ⟨h1, h2, h3⟩ := h c (List.mem_cons_self _ _)
    exact StringText.plain c s s h1 h2 h3 (ih (fun x hx => h x (List.mem_cons_of_mem _ hx)))

theorem sample_body_is_object :
    ObjectDocument "\x7b\"upstreams\": [], \"downstreams\": []\x7d"
      [("upstreams", .slice []), ("downstreams", .slice [])] := by
  have hnone : AllSpace [] := fun c hc => absurd hc (List.not_mem_nil c)
  have hone : AllSpace [' '] := by
    intro c hc
    rw [List.mem_singleton] at hc
    rw [hc]
    rfl
  have harr : JsonText 9999 ['[', ']'] (.slice []) :=
    Or.inr (ContainerText.emptyArray [] hnone)
  refine ⟨[], "\x7b\"upstreams\": [], \"downstreams\": []\x7d".data, [], 9999, rfl, hnone,
    hnone, rfl, ?_⟩
  refine ObjectText.members [] "\"upstreams\": [], \"downstreams\": []\x7d".data _ hnone ?_
  refine MembersText.more "upstreams".data "upstreams".data [] [' '] ['[', ']'] (.slice []) []
    [' '] _ _ (stringText_plain _ (by decide)) hnone hone harr hnone hone ?_
  exact MembersText.last "downstreams".data "downstreams".data [] [' '] ['[', ']'] (.slice []) []
    (stringText_plain _ (by decide)) hnone hone harr hnone

/-- Example for C5: the body with empty `upstreams` and `downstreams` is rendered
as a mapping with these two keys, each an empty sequence. -/
theorem object_body_is_rendered_once_witness :
    ∃ out, columnLineageRunE
        (goEnv (sampleCollaborators none
          (.ok ⟨200, .ok "\x7b\"upstreams\": [], \"downstreams\": []\x7d"⟩) none))
        [asciiBytes "catalog1.schema1.table1", asciiBytes "id"] = some out ∧
      rendered out.trace = [some [("upstreams", .slice []), ("downstreams", .slice [])]] ∧
      out.err = none := by
  have h := object_body_is_rendered_once
    (sampleCollaborators none
      (.ok ⟨200, .ok "\x7b\"upstreams\": [], \"downstreams\": []\x7d"⟩) none)
    true (asciiBytes "catalog1.schema1.table1") (asciiBytes "id") _ _
    "\x7b\"upstreams\": [], \"downstreams\": []\x7d"
    [("upstreams", .slice []), ("downstreams", .slice [])]
    (Or.inr (columnLineageRunE_eq_shared _ _ _)) rfl rfl sample_body_is_object
  exact ⟨_, columnLineageRunE_eq_shared _ _ _, h.2.1, h.2.2.1⟩

/-- C5, the claim as stated fails: the body is a JSON object, the status is
200, and the command fails with a decode error without rendering, because a
number in the object is outside the range of `float64`. -/
theorem out_of_range_number_is_not_rendered :
    ∃ out, tableLineageRunE
        (goEnv (sampleCollaborators none (.ok ⟨200, .ok "\x7b\"a\":1e999\x7d"⟩) none))
        true [asciiBytes "catalog1.schema1.table1"] = some out ∧
      isObjectDocument "\x7b\"a\":1e999\x7d" = true ∧
      out.err = some (Errorf_w "failed to parse response: "
        (.jsonUnmarshalType "number 1e999" "float64")) ∧
      rendered out.trace = [] :=
  ⟨_, tableLineageRunE_eq_shared _ _ _, rfl, rfl, rfl⟩

end LineageTracking
